import Mathlib

/-!
# embed_test_data: escaping and chunked literal assembly

A shallow embedding of `util/embed_test_data.go`: the function `quote`, the
chunk loop of `main`, and the two C++ functions that `main` prints
(`AssembleString` and `GetTestData`), together with a decoder for C++ string
literals against which the escaping is checked.

Character codes used throughout: 34 is the double quote, 92 the backslash,
120 the letter x, 48..57 the digits, 97..102 the letters a..f and 65..70 the
letters A..F.
-/

set_option maxRecDepth 100000

namespace EmbedTestData

/-- A byte, as in Go's `[]byte` and in the bytes of a Go `string`. -/
abbrev Byte := Fin 256

/-! ## quote -/

/-- The local `isHexDigit` of `quote`:
`('0' <= b && b <= '9') || ('a' <= b && b <= 'f') || ('A' <= b && b <= 'F')`. -/
def isHexDigit (b : Byte) : Bool :=
  (48 ≤ b.val && b.val ≤ 57) || (97 ≤ b.val && b.val ≤ 102) || (65 ≤ b.val && b.val ≤ 70)

/-- One lowercase hexadecimal digit, as printed by the verb `%x`. -/
def hexDigit (n : Nat) : Byte :=
  if n < 10 then Fin.ofNat (48 + n) else Fin.ofNat (87 + n)

/-- The text written by `fmt.Fprintf(&buf, "\\x%02x", b)`: backslash, `x`, and
the value of `b` in two lowercase hexadecimal digits. -/
def hexEscape (b : Byte) : List Byte :=
  [92, 120, hexDigit (b.val / 16), hexDigit (b.val % 16)]

/-- The variables of `quote` that live across loop iterations. -/
structure QuoteState where
  buf : List Byte
  lastWasHex : Bool
deriving DecidableEq, Repr

/-- One iteration of `for _, b := range in` in `quote`: the `switch` on `b`,
followed by `lastWasHex = wasHex`. -/
def quoteStep (st : QuoteState) (b : Byte) : QuoteState :=
  if b = 7 then ⟨st.buf ++ [92, 97], false⟩            -- '\a'
  else if b = 8 then ⟨st.buf ++ [92, 98], false⟩       -- '\b'
  else if b = 12 then ⟨st.buf ++ [92, 102], false⟩     -- '\f'
  else if b = 10 then ⟨st.buf ++ [92, 110], false⟩     -- '\n'
  else if b = 13 then ⟨st.buf ++ [92, 114], false⟩     -- '\r'
  else if b = 9 then ⟨st.buf ++ [92, 116], false⟩      -- '\t'
  else if b = 11 then ⟨st.buf ++ [92, 118], false⟩     -- '\v'
  else if b = 34 then ⟨st.buf ++ [92, 34], false⟩      -- '"'
  else if b = 92 then ⟨st.buf ++ [92, 92], false⟩      -- '\\'
  else if 32 ≤ b.val ∧ b.val ≤ 126 ∧ ¬(st.lastWasHex = true ∧ isHexDigit b = true) then
    ⟨st.buf ++ [b], false⟩
  else
    ⟨st.buf ++ hexEscape b, true⟩

/-- The state of `quote` when its loop starts: the opening quote is in the
buffer and `lastWasHex` is false. -/
def quoteInit : QuoteState := ⟨[34], false⟩

/-- The function `quote`. -/
def quote (inp : List Byte) : List Byte :=
  (inp.foldl quoteStep quoteInit).buf ++ [34]

/-! ## Decoding a C++ string literal -/

/-- The value of a hexadecimal digit character (0 for any other character). -/
def hexVal (c : Byte) : Nat :=
  if 48 ≤ c.val ∧ c.val ≤ 57 then c.val - 48
  else if 97 ≤ c.val ∧ c.val ≤ 102 then c.val - 87
  else if 65 ≤ c.val ∧ c.val ≤ 70 then c.val - 55
  else 0

/-- Where the reader of a C++ string literal stands. -/
inductive DMode where
  /-- Before the opening quote. -/
  | start
  /-- Inside the literal, between two units. -/
  | body
  /-- Directly after a backslash. -/
  | esc
  /-- Directly after backslash and `x`, no digit read yet. -/
  | hexStart
  /-- Inside a `\x` escape whose digits so far have the value `v`. -/
  | hex (v : Nat)
  /-- After the closing quote. -/
  | done
  /-- The text is not a string literal. -/
  | fail
deriving DecidableEq, Repr

/-- Reading one character between two units of the literal: the closing quote,
the start of an escape, or a literal character (a raw newline is not allowed
inside a literal). Returns the new mode and the bytes decoded. -/
def bodyStep (c : Byte) : DMode × List Byte :=
  if c = 34 then (.done, [])
  else if c = 92 then (.esc, [])
  else if c = 10 then (.fail, [])
  else (.body, [c])

/-- Reading the character after a backslash: the simple escapes of C++ and
the start of a hexadecimal escape. -/
def escStep (c : Byte) : DMode × List Byte :=
  if c = 97 then (.body, [7])            -- \a
  else if c = 98 then (.body, [8])       -- \b
  else if c = 102 then (.body, [12])     -- \f
  else if c = 110 then (.body, [10])     -- \n
  else if c = 114 then (.body, [13])     -- \r
  else if c = 116 then (.body, [9])      -- \t
  else if c = 118 then (.body, [11])     -- \v
  else if c = 34 then (.body, [34])      -- \"
  else if c = 92 then (.body, [92])      -- \\
  else if c = 39 then (.body, [39])      -- \'
  else if c = 63 then (.body, [63])      -- \?
  else if c = 120 then (.hexStart, [])   -- \x
  else (.fail, [])

/-- One character of the reader. A hexadecimal escape takes every hexadecimal
digit that follows it; it ends at the first other character, where its value
must fit in a byte. -/
def decStep (m : DMode) (c : Byte) : DMode × List Byte :=
  match m with
  | .start => if c = 34 then (.body, []) else (.fail, [])
  | .body => bodyStep c
  | .esc => escStep c
  | .hexStart => if isHexDigit c then (.hex (hexVal c), []) else (.fail, [])
  | .hex v =>
    if isHexDigit c then (.hex (v * 16 + hexVal c), [])
    else if h : v < 256 then ((bodyStep c).1, ⟨v, h⟩ :: (bodyStep c).2)
    else (.fail, [])
  | .done => (.fail, [])
  | .fail => (.fail, [])

/-- Reading a sequence of characters from mode `m`: the mode reached and the
bytes decoded on the way. -/
def decRun : DMode → List Byte → DMode × List Byte
  | m, [] => (m, [])
  | m, c :: cs => ((decRun (decStep m c).1 cs).1, (decStep m c).2 ++ (decRun (decStep m c).1 cs).2)

/-- Decoding a text as one C++ string literal: the opening quote, then units
(literal character, simple escape, or greedy `\x` escape), then the closing
quote as the last character. -/
def cppDecode (s : List Byte) : Option (List Byte) :=
  match decRun .start s with
  | (.done, out) => some out
  | _ => none

/-! ## Derived views of the loop of quote -/

/-- The bytes one iteration of the loop of `quote` appends to the buffer, read
off `quoteStep` on an empty buffer. -/
def quoteUnit (l : Bool) (b : Byte) : List Byte := (quoteStep ⟨[], l⟩ b).buf

/-- The value one iteration of the loop of `quote` leaves in `lastWasHex`. -/
def quoteFlag (l : Bool) (b : Byte) : Bool := (quoteStep ⟨[], l⟩ b).lastWasHex

/-- The text the loop of `quote` writes for `bs` when it starts with
`lastWasHex = l`. -/
def quoteBody : Bool → List Byte → List Byte
  | _, [] => []
  | l, b :: bs => quoteUnit l b ++ quoteBody (quoteFlag l b) bs

/-- The state of `quote` when the iteration for position `i` starts: the
state reached from `quoteInit` over the first `i` bytes of the input. -/
def stateAt (inp : List Byte) (i : Nat) : QuoteState :=
  (inp.take i).foldl quoteStep quoteInit

/-- The bytes the iteration for position `i` appends to the buffer: what the
buffer holds after that iteration beyond what it held before. The output of
`quote` is the opening quote, these pieces in order, and the closing quote
(`quote_eq_flatten_emittedAt`). -/
def emittedAt (inp : List Byte) (i : Nat) : List Byte :=
  (stateAt inp (i + 1)).buf.drop (stateAt inp i).buf.length

/-- Position `i` of the input is emitted as a `\xHH` escape. -/
def hexEscapedAt (inp : List Byte) (i : Nat) : Prop :=
  ∃ b, inp[i]? = some b ∧ emittedAt inp i = hexEscape b

/-- A byte that `quote` can only write as a hexadecimal escape: outside
[32, 126] and without a short escape. -/
def requiresHex (b : Byte) : Prop :=
  ¬(32 ≤ b.val ∧ b.val ≤ 126) ∧ ¬(7 ≤ b.val ∧ b.val ≤ 13)

instance (b : Byte) : Decidable (requiresHex b) := by unfold requiresHex; infer_instance

instance (inp : List Byte) (i : Nat) : Decidable (hexEscapedAt inp i) :=
  match h : inp[i]? with
  | none => isFalse (by rintro ⟨b, hb, _⟩; rw [h] at hb; cases hb)
  | some b =>
    if he : emittedAt inp i = hexEscape b then isTrue ⟨b, h, he⟩
    else isFalse (by rintro ⟨c, hc, hec⟩; rw [h] at hc; cases hc; exact he hec)

/-! ## The chunk loop of main -/

/-- The constant `chunkSize` of `main`. -/
def chunkSize : Nat := 8192

/-- The result of running a loop of the model: a value, or the reason why
there is none. -/
inductive Outcome (α : Type) where
  /-- The loop finished with this value. -/
  | ok (a : α)
  /-- The fuel given to the loop ran out before it finished. -/
  | outOfFuel
  /-- A slice bound or an index was out of range. -/
  | outOfRange
deriving DecidableEq, Repr

/-- The Go slice expression `data[:hi]`; it panics when `hi` exceeds the
length. -/
def sliceTo (data : List Byte) (hi : Nat) : Option (List Byte) :=
  if hi ≤ data.length then some (data.take hi) else none

/-- The Go slice expression `data[lo:]`; it panics when `lo` exceeds the
length. -/
def sliceFrom (data : List Byte) (lo : Nat) : Option (List Byte) :=
  if lo ≤ data.length then some (data.drop lo) else none

/-- The loop `for len(data) > 0` of `main`, run for at most `fuel` iterations.
The result lists the slices `data[:chunk]` passed to `quote`, in the order of
the calls; each call prints one literal of the array `kData`. -/
def chunkLoop : Nat → List Byte → Outcome (List (List Byte))
  | 0, data => if data.length > 0 then .outOfFuel else .ok []
  | fuel + 1, data =>
    if data.length > 0 then
      let chunk := if chunkSize > data.length then data.length else chunkSize
      match sliceTo data chunk, sliceFrom data chunk with
      | some head, some rest =>
        match chunkLoop fuel rest with
        | .ok out => .ok (head :: out)
        | .outOfFuel => .outOfFuel
        | .outOfRange => .outOfRange
      | _, _ => .outOfRange
    else .ok []

/-- The slices that `main` passes to `quote` for one file: the chunk loop with
one unit of fuel for each byte of the content. -/
def chunkArgs (data : List Byte) : Outcome (List (List Byte)) :=
  chunkLoop data.length data

/-- The `k`-th block of `chunkSize` bytes of `data`, counted from 0. -/
def block (data : List Byte) (k : Nat) : List Byte :=
  (data.drop (chunkSize * k)).take chunkSize

/-- The blocks of `data` in closed form: `ceil(len / chunkSize)` of them. -/
def blocks (data : List Byte) : List (List Byte) :=
  (List.range ((data.length + (chunkSize - 1)) / chunkSize)).map (block data)

/-- The length `main` prints as `kLen` for a file: `len(data)` before the
chunk loop runs. -/
def kLen (data : List Byte) : Nat := data.length

/-- The literals `main` prints into the array `kData` for a file: `quote` of
each slice of the chunk loop, in order. -/
def kData (data : List Byte) : Outcome (List (List Byte)) :=
  match chunkArgs data with
  | .ok slices => .ok (slices.map quote)
  | .outOfFuel => .outOfFuel
  | .outOfRange => .outOfRange

/-! ## The generated C++ functions -/

/-- The array `kData` as the C++ compiler sees it: each printed literal
decoded; there is no array when a literal is ill-formed. -/
def decodeAll : List (List Byte) → Option (List (List Byte))
  | [] => some []
  | l :: ls =>
    match cppDecode l, decodeAll ls with
    | some d, some ds => some (d :: ds)
    | _, _ => none

/-- The loop of the generated `AssembleString`, from the values `i` and `ret`,
run for at most `fuel` iterations:
`for (; i < len; i += chunkSize) ret.append(data[i / chunkSize], min(chunkSize, len - i))`.
The model stops with `outOfRange` when the index is outside the array or when
the prefix to append is longer than the decoded literal. The arithmetic of
`size_t` is that of the natural numbers here: `len` is a Go `int`, so
`i + chunkSize` stays far below the range of `size_t`. -/
def assembleLoop : Nat → List (List Byte) → Nat → Nat → List Byte → Outcome (List Byte)
  | 0, _, len, i, ret => if i < len then .outOfFuel else .ok ret
  | fuel + 1, data, len, i, ret =>
    if i < len then
      let chunk := min chunkSize (len - i)
      match data[i / chunkSize]? with
      | none => .outOfRange
      | some s =>
        if chunk ≤ s.length then
          assembleLoop fuel data len (i + chunkSize) (ret ++ s.take chunk)
        else .outOfRange
    else .ok ret

/-- The generated function `AssembleString(data, len)`. Each iteration adds
`chunkSize` to `i`, so `len` iterations are enough. -/
def AssembleString (data : List (List Byte)) (len : Nat) : Outcome (List Byte) :=
  assembleLoop len data len 0 []

/-- One input file: its path as given to `main`, and the bytes read from it. -/
structure Entry where
  key : List Byte
  content : List Byte
deriving DecidableEq, Repr

/-- What a call of the generated `GetTestData` does. -/
inductive Lookup where
  /-- It returns this string. -/
  | found (content : List Byte)
  /-- It reaches `fprintf(stderr, "File not embedded: %s.\n", path); abort();`
  with this path. -/
  | abort (path : List Byte)
  /-- The generated file is not the program `main` means to print (it is
  ill-formed, or text of a path is read as code), or its behaviour is
  undefined. -/
  | undefined
deriving DecidableEq, Repr

/-- The test `strcmp(a, b) == 0` on two C strings, each given by the bytes
stored before its terminating NUL; the comparison ends at the first NUL. -/
def strcmpEq : List Byte → List Byte → Bool
  | [], [] => true
  | [], b :: _ => b = 0
  | a :: _, [] => a = 0
  | a :: as, b :: bs => if a = b then (if a = 0 then true else strcmpEq as bs) else false

/-- The value of `AssembleString(kData_i, kLen_i)` in the generated file, for
the entry with the given content: the literals `main` printed, decoded, and
assembled with the printed length. -/
def assembled (content : List Byte) : Lookup :=
  match kData content with
  | .ok lits =>
    match decodeAll lits with
    | some arr =>
      match AssembleString arr (kLen content) with
      | .ok s => .found s
      | _ => .undefined
    | none => .undefined
  | _ => .undefined

/-- The chain of comparisons in the body of the generated `GetTestData(path)`:
for each file in input order,
`if (strcmp(path, <quote(key)>) == 0) return AssembleString(kData_i, kLen_i);`
and after the last one the report of `path` and `abort()`. -/
def lookupChain : List Entry → List Byte → Lookup
  | [], path => .abort path
  | e :: rest, path =>
    match cppDecode (quote e.key) with
    | none => .undefined
    | some lit => if strcmpEq path lit then assembled e.content else lookupChain rest path

/-- The bytes of an ASCII text. -/
def ascii (s : String) : List Byte :=
  s.toList.map (fun c => Fin.ofNat c.toNat)

/-- The comment `main` prints at lines 103 to 109: its opening line, the
command, then every file of the list on a line of its own, printed raw with
`%s`, and the closing ` */`. -/
def generatedBy (files : List (List Byte)) : List Byte :=
  ascii "/* This file is generated by:\n" ++ ascii " *   go run util/embed_test_data.go" ++
    (files.map (fun arg => ascii " \\\n *       " ++ arg)).flatten ++ ascii " */\n"

/-- Reading a C++ block comment after its opening `/*`: the text that follows
the first `*/`, or `none` when the comment does not end. -/
def skipComment : List Byte → Option (List Byte)
  | [] => none
  | a :: t =>
    match t with
    | [] => none
    | b :: rest => if a = 42 ∧ b = 47 then some rest else skipComment t

/-- The comment of lines 103 to 109 ends where `main` closes it: the first `*/`
after its opening is the one printed last, with only the newline after it.
Otherwise a `*/` inside a file path ends the comment and the rest of the path is
read as code. -/
def headerCloses (files : List (List Byte)) : Bool :=
  decide (skipComment ((generatedBy files).drop 2) = some [10])

/-- The generated function `GetTestData(path)`, in the file `main` prints for
the given entries: the chain of comparisons, provided that the comment listing
the files is closed where `main` closes it. When it is not, text of a path
stands in the file as code, and the file is not the program `main` means to
print. -/
def GetTestData (entries : List Entry) (path : List Byte) : Lookup :=
  if headerCloses (entries.map Entry.key) then lookupChain entries path else .undefined

/-- A lowercase hexadecimal digit character: `0`..`9` or `a`..`f`. -/
def isLowerHexChar (c : Byte) : Bool :=
  (48 ≤ c.val && c.val ≤ 57) || (97 ≤ c.val && c.val ≤ 102)

/-! ## The file list of main -/

/-- The predicate `main` passes to `strings.FieldsFunc`:
`r == '\r' || r == '\n'`. -/
def isLineBreak (b : Byte) : Bool := b = 13 || b = 10

/-- The state of the loop of `strings.FieldsFunc`: the fields closed so far and
the field being read, when one has started. -/
structure FieldsState where
  fields : List (List Byte)
  cur : Option (List Byte)
deriving DecidableEq, Repr

/-- One step of the loop of `strings.FieldsFunc`: a separator closes the field
being read, any other byte starts a field or extends it. -/
def fieldsStep (f : Byte → Bool) (st : FieldsState) (b : Byte) : FieldsState :=
  if f b then
    match st.cur with
    | some w => ⟨st.fields ++ [w], none⟩
    | none => st
  else
    match st.cur with
    | some w => ⟨st.fields, some (w ++ [b])⟩
    | none => ⟨st.fields, some [b]⟩

/-- The Go library function `strings.FieldsFunc(s, f)`: the maximal runs of
`s` without a separator, in order. The library reads code points; a carriage
return or line feed is one byte and never part of a longer encoding, so for
the predicate of `main` reading bytes gives the same fields. -/
def FieldsFunc (s : List Byte) (f : Byte → Bool) : List (List Byte) :=
  let st := s.foldl (fieldsStep f) ⟨[], none⟩
  match st.cur with
  | some w => st.fields ++ [w]
  | none => st.fields

/-- Lines 77 to 87 of `main`: the file list. `fileList` is the value of the
flag, `read` what `os.ReadFile` returns for it (`none` when it fails and `main`
exits), `args` the positional arguments. -/
def mainFiles (fileList : List Byte) (read : Option (List Byte))
    (args : List (List Byte)) : Option (List (List Byte)) :=
  if fileList.length ≠ 0 then
    match read with
    | none => none
    | some data => some (FieldsFunc data isLineBreak ++ args)
  else some ([] ++ args)

/-- The list-file text split at every carriage return and line feed, with the
empty pieces dropped: the wording of the specification. -/
def splitDropEmpty (text : List Byte) : List (List Byte) :=
  (text.splitOnP isLineBreak).filter (fun w => !w.isEmpty)

/-! ## Bodies of the chunk literals -/

/-- The escaped body of a literal: the text between its delimiting quotes. -/
def literalBody (lit : List Byte) : List Byte := (lit.drop 1).dropLast

/-- The bodies of a sequence of literals, concatenated into one body. -/
def concatBodies (lits : List (List Byte)) : List Byte :=
  (lits.map literalBody).flatten

/-- Decoding a body with the rules of C++: reading it as the literal it forms
between two quotes. -/
def cppDecodeBody (body : List Byte) : Option (List Byte) :=
  cppDecode (34 :: (body ++ [34]))

/-- The value of `lastWasHex` when the loop of `quote`, started with
`lastWasHex = l`, has gone through `bs`. -/
def quoteEndFlag : Bool → List Byte → Bool
  | l, [] => l
  | l, b :: bs => quoteEndFlag (quoteFlag l b) bs

/-- A content of `n` letters `g` followed by a NUL byte and the byte `y`. -/
def boundaryOf (n : Nat) (y : Byte) : List Byte := List.replicate n 103 ++ [0, y]

/-- A content of 8193 bytes whose chunk boundary lies between a NUL byte and the
digit `1`: 8191 letters `g`, then the bytes 0 and 49. -/
def boundaryContent : List Byte := boundaryOf 8191 49

/-- Two consecutive chunks whose bodies run together when written one after the
other: the last byte of `c` is emitted as a hexadecimal escape and `d` starts
with a hexadecimal-digit byte. -/
def mergesAt (c d : List Byte) : Prop :=
  hexEscapedAt c (c.length - 1) ∧ ∃ x, d[0]? = some x ∧ isHexDigit x = true

/-- The text `main` prints after the command line of the comment: every file on
a line of its own, then the closing ` */`. -/
def headerRest (files : List (List Byte)) : List Byte :=
  (files.map (fun arg => ascii " \\\n *       " ++ arg)).flatten ++ ascii " */\n"

/-! ## Lemmas on quote and the decoder -/

theorem quoteStep_eq (st : QuoteState) (b : Byte) :
    quoteStep st b = ⟨st.buf ++ quoteUnit st.lastWasHex b, quoteFlag st.lastWasHex b⟩ := by
  by_cases h1 : b = 7
  · subst h1; rfl
  by_cases h2 : b = 8
  · subst h2; rfl
  by_cases h3 : b = 12
  · subst h3; rfl
  by_cases h4 : b = 10
  · subst h4; rfl
  by_cases h5 : b = 13
  · subst h5; rfl
  by_cases h6 : b = 9
  · subst h6; rfl
  by_cases h7 : b = 11
  · subst h7; rfl
  by_cases h8 : b = 34
  · subst h8; rfl
  by_cases h9 : b = 92
  · subst h9; rfl
  simp only [quoteUnit, quoteFlag, quoteStep, h1, h2, h3, h4, h5, h6, h7, h8, h9, if_false]
  split <;> simp

theorem foldl_quoteStep (bs : List Byte) (st : QuoteState) :
    (bs.foldl quoteStep st).buf = st.buf ++ quoteBody st.lastWasHex bs := by
  induction bs generalizing st with
  | nil => simp [quoteBody]
  | cons b bs ih => rw [List.foldl_cons, ih, quoteStep_eq]; simp [quoteBody]

theorem quote_eq_body (inp : List Byte) : quote inp = 34 :: (quoteBody false inp ++ [34]) := by
  simp [quote, foldl_quoteStep, quoteInit]

theorem decRun_append (m : DMode) (s t : List Byte) :
    decRun m (s ++ t) = ((decRun (decRun m s).1 t).1, (decRun m s).2 ++ (decRun (decRun m s).1 t).2) := by
  induction s generalizing m with
  | nil => simp [decRun]
  | cons c cs ih => simp [decRun, ih]

theorem decRun_quoteUnit : ∀ (l : Bool) (b : Byte),
    decRun .body (quoteUnit l b) = if quoteFlag l b then (.hex b.val, []) else (.body, [b]) := by
  decide

theorem quoteUnit_true_head : ∀ b : Byte,
    (quoteUnit true b).head?.map isHexDigit = some false := by
  decide

theorem decRun_hex_of_not_hexDigit (v : Byte) (c : Byte) (cs : List Byte) (hc : isHexDigit c = false) :
    decRun (.hex v.val) (c :: cs) = ((decRun .body (c :: cs)).1, v :: (decRun .body (c :: cs)).2) := by
  simp [decRun, decStep, hc]

theorem quoteBody_true_head (bs : List Byte) :
    ∃ c cs, quoteBody true bs ++ [34] = c :: cs ∧ isHexDigit c = false := by
  cases bs with
  | nil => exact ⟨34, [], rfl, by decide⟩
  | cons b bs =>
    have h := quoteUnit_true_head b
    cases hu : quoteUnit true b with
    | nil => simp [hu] at h
    | cons c cs =>
      refine ⟨c, cs ++ quoteBody (quoteFlag true b) bs ++ [34], by simp [quoteBody, hu], ?_⟩
      simpa [hu] using h

theorem decRun_quoteBody (bs : List Byte) (l : Bool) :
    decRun .body (quoteBody l bs ++ [34]) = (.done, bs) := by
  induction bs generalizing l with
  | nil => rfl
  | cons b bs ih =>
    rw [quoteBody, List.append_assoc, decRun_append, decRun_quoteUnit]
    cases hf : quoteFlag l b with
    | false => simp [ih]
    | true =>
      obtain ⟨c, cs, hcs, hc⟩ := quoteBody_true_head bs
      simp only [if_true]
      rw [hcs, decRun_hex_of_not_hexDigit b c cs hc, ← hcs, ih]
      simp

theorem cppDecode_quote (inp : List Byte) : cppDecode (quote inp) = some inp := by
  rw [quote_eq_body]
  simp [cppDecode, decRun, decStep, decRun_quoteBody]

theorem stateAt_succ (inp : List Byte) (i : Nat) (b : Byte) (h : inp[i]? = some b) :
    stateAt inp (i + 1) = quoteStep (stateAt inp i) b := by
  simp [stateAt, List.take_succ, h, List.foldl_append]

theorem emittedAt_eq (inp : List Byte) (i : Nat) (b : Byte) (h : inp[i]? = some b) :
    emittedAt inp i = quoteUnit (stateAt inp i).lastWasHex b := by
  simp [emittedAt, stateAt_succ inp i b h, quoteStep_eq]

theorem stateAt_succ_flag (inp : List Byte) (i : Nat) (b : Byte) (h : inp[i]? = some b) :
    (stateAt inp (i + 1)).lastWasHex = quoteFlag (stateAt inp i).lastWasHex b := by
  simp [stateAt_succ inp i b h, quoteStep_eq]

theorem stateAt_buf (inp : List Byte) (i : Nat) :
    (stateAt inp i).buf = 34 :: quoteBody false (inp.take i) := by
  simp [stateAt, foldl_quoteStep, quoteInit]

theorem quote_eq_at (inp : List Byte) (i : Nat) (b : Byte) (h : inp[i]? = some b) :
    quote inp = (stateAt inp i).buf ++ emittedAt inp i ++
      (quoteBody (stateAt inp (i + 1)).lastWasHex (inp.drop (i + 1)) ++ [34]) := by
  have h0 : inp.foldl quoteStep quoteInit =
      (inp.drop (i + 1)).foldl quoteStep (stateAt inp (i + 1)) := by
    unfold stateAt
    rw [← List.foldl_append, List.take_append_drop]
  have h1 : quote inp = (stateAt inp (i + 1)).buf ++
      (quoteBody (stateAt inp (i + 1)).lastWasHex (inp.drop (i + 1)) ++ [34]) := by
    unfold quote
    rw [h0, foldl_quoteStep, List.append_assoc]
  rw [h1, stateAt_succ inp i b h, quoteStep_eq, emittedAt_eq inp i b h]

theorem quoteBody_take (inp : List Byte) (i : Nat) (hi : i ≤ inp.length) :
    quoteBody false (inp.take i) = ((List.range i).map (emittedAt inp)).flatten := by
  induction i with
  | zero => simp [quoteBody]
  | succ i ih =>
    have hlt : i < inp.length := hi
    have hget : inp[i]? = some inp[i] := List.getElem?_eq_getElem hlt
    have h1 := stateAt_buf inp (i + 1)
    rw [stateAt_succ inp i _ hget, quoteStep_eq, stateAt_buf inp i,
      ← emittedAt_eq inp i _ hget] at h1
    have h2 : quoteBody false (inp.take (i + 1)) =
        quoteBody false (inp.take i) ++ emittedAt inp i := by
      simpa using h1.symm
    rw [h2, ih (Nat.le_of_lt hlt), List.range_succ, List.map_append, List.flatten_append]
    simp

/-- The output of `quote` is the opening quote, what each iteration emitted, in
order of the positions, and the closing quote. -/
theorem quote_eq_flatten_emittedAt (inp : List Byte) :
    quote inp = 34 :: (((List.range inp.length).map (emittedAt inp)).flatten ++ [34]) := by
  rw [quote_eq_body, ← quoteBody_take inp inp.length (Nat.le_refl _), List.take_length]

theorem quoteFlag_iff : ∀ (l : Bool) (b : Byte),
    quoteUnit l b = hexEscape b ↔ quoteFlag l b = true := by
  decide

theorem quoteFlag_hexDigit : ∀ (l : Bool) (b : Byte), isHexDigit b = true →
    quoteFlag l b = l ∧ (l = false → quoteUnit l b = [b]) := by
  decide

theorem quoteUnit_printable : ∀ (l : Bool) (b : Byte), 32 ≤ b.val → b.val ≤ 126 → b ≠ 34 →
    b ≠ 92 → ¬(l = true ∧ isHexDigit b = true) → quoteUnit l b = [b] := by
  decide

theorem lastWasHex_iff (inp : List Byte) (i : Nat) (hi : i ≤ inp.length) :
    (stateAt inp i).lastWasHex = true ↔ 0 < i ∧ hexEscapedAt inp (i - 1) := by
  cases i with
  | zero => simp [stateAt, quoteInit]
  | succ j =>
    have hj : j < inp.length := hi
    have hget : inp[j]? = some inp[j] := List.getElem?_eq_getElem hj
    rw [stateAt_succ_flag inp j _ hget]
    simp only [Nat.succ_pos, true_and, Nat.add_sub_cancel, hexEscapedAt]
    constructor
    · intro hf
      exact ⟨inp[j], hget, by rw [emittedAt_eq inp j _ hget]; exact (quoteFlag_iff _ _).2 hf⟩
    · rintro ⟨p, hp, he⟩
      rw [hget] at hp
      cases hp
      rw [emittedAt_eq inp j _ hget] at he
      exact (quoteFlag_iff _ _).1 he

theorem quoteUnit_short : ∀ l : Bool,
    quoteUnit l 7 = [92, 97] ∧ quoteUnit l 8 = [92, 98] ∧ quoteUnit l 9 = [92, 116] ∧
    quoteUnit l 10 = [92, 110] ∧ quoteUnit l 11 = [92, 118] ∧ quoteUnit l 12 = [92, 102] ∧
    quoteUnit l 13 = [92, 114] ∧ quoteUnit l 34 = [92, 34] ∧ quoteUnit l 92 = [92, 92] := by
  decide

theorem quoteUnit_short_not_hex : ∀ (l : Bool) (b : Byte),
    (7 ≤ b.val ∧ b.val ≤ 13) ∨ b = 34 ∨ b = 92 →
    quoteUnit l b ≠ hexEscape b ∧ (quoteUnit l b).length = 2 := by
  decide

theorem quoteUnit_requiresHex : ∀ (l : Bool) (h : Byte), requiresHex h →
    quoteUnit l h = hexEscape h ∧ quoteFlag l h = true := by
  decide

theorem quoteUnit_true_hexDigit : ∀ d : Byte, isHexDigit d = true →
    quoteUnit true d = hexEscape d := by
  decide

/-- C1: decoding `quote b` as one C++ string literal gives back `b`, for every
byte sequence `b`; in particular for the empty sequence and for each single
byte. -/
theorem quote_round_trip :
    (∀ b : List Byte, cppDecode (quote b) = some b) ∧
    cppDecode (quote []) = some [] ∧
    (∀ x : Byte, cppDecode (quote [x]) = some [x]) :=
  ⟨cppDecode_quote, cppDecode_quote [], fun x => cppDecode_quote [x]⟩

/-- C2: when the byte at position `i` is emitted as a hexadecimal escape, the
output is the buffer written before that iteration, the four characters of the
escape, and then a character that is not a hexadecimal digit. For a byte `h`
that requires a hexadecimal escape and a hexadecimal digit `d`, `quote [h, d]`
is the quote, the escape of `h`, the escape of `d` and the quote, so `d` is not
emitted literally. -/
theorem quote_no_merged_hex :
    (∀ (inp : List Byte) (i : Nat) (b : Byte), inp[i]? = some b →
      emittedAt inp i = hexEscape b →
      ∃ c rest, quote inp = (stateAt inp i).buf ++ hexEscape b ++ c :: rest ∧
        isHexDigit c = false) ∧
    (∀ h d : Byte, requiresHex h → isHexDigit d = true →
      quote [h, d] = 34 :: (hexEscape h ++ hexEscape d ++ [34]) ∧
      emittedAt [h, d] 1 = hexEscape d ∧ emittedAt [h, d] 1 ≠ [d]) := by
  refine ⟨?_, ?_⟩
  · intro inp i b h he
    have hflag : (stateAt inp (i + 1)).lastWasHex = true := by
      rw [stateAt_succ_flag inp i b h]
      exact (quoteFlag_iff _ _).1 (by rw [← emittedAt_eq inp i b h]; exact he)
    obtain ⟨c, cs, hcs, hc⟩ := quoteBody_true_head (inp.drop (i + 1))
    refine ⟨c, cs, ?_, hc⟩
    rw [quote_eq_at inp i b h, he, hflag, hcs]
  · intro h d hh hd
    have h1 := quoteUnit_requiresHex false h hh
    have h2 := quoteUnit_true_hexDigit d hd
    have hq : quote [h, d] = 34 :: (hexEscape h ++ hexEscape d ++ [34]) := by
      rw [quote_eq_body]
      simp [quoteBody, h1.1, h1.2, h2]
    have he : emittedAt [h, d] 1 = hexEscape d := by
      rw [emittedAt_eq [h, d] 1 d rfl]
      have : (stateAt [h, d] 1).lastWasHex = true := by
        rw [stateAt_succ_flag [h, d] 0 h rfl]
        exact (quoteUnit_requiresHex _ h hh).2
      rw [this, h2]
    refine ⟨hq, he, ?_⟩
    rw [he]
    simp [hexEscape]

/-- Witness of C2 at the input `[0, '1']`. -/
theorem quote_no_merged_hex_witness :
    (∃ c rest, quote [0, 49] = (stateAt [0, 49] 0).buf ++ hexEscape 0 ++ c :: rest ∧
        isHexDigit c = false) ∧
    quote [0, 49] = [34, 92, 120, 48, 48, 92, 120, 51, 49, 34] :=
  ⟨quote_no_merged_hex.1 [0, 49] 0 0 rfl (by decide),
   (quote_no_merged_hex.2 0 49 (by decide) (by decide)).1⟩

theorem stateAt_buf_quote (inp : List Byte) (i : Nat) :
    (stateAt inp i).buf = (quote (inp.take i)).dropLast := by
  simp [quote, stateAt]

theorem quote_tail (xs : List Byte) : (quote xs).tail = quoteBody false xs ++ [34] := by
  rw [quote_eq_body]
  rfl

theorem quote_split_at (inp : List Byte) (i : Nat) (b : Byte) (h : inp[i]? = some b) :
    quote inp = (quote (inp.take i)).dropLast ++ emittedAt inp i ++
      (quoteBody (quoteFlag (stateAt inp i).lastWasHex b) (inp.drop (i + 1)) ++ [34]) := by
  rw [← stateAt_buf_quote, ← stateAt_succ_flag inp i b h]
  exact quote_eq_at inp i b h

theorem quote_split_at_of_flag_false (inp : List Byte) (i : Nat) (b : Byte)
    (h : inp[i]? = some b) (hf : quoteFlag (stateAt inp i).lastWasHex b = false) :
    quote inp = (quote (inp.take i)).dropLast ++ emittedAt inp i ++
      (quote (inp.drop (i + 1))).tail := by
  rw [quote_tail, ← hf]
  exact quote_split_at inp i b h

theorem quoteFlag_short : ∀ (l : Bool) (b : Byte),
    (7 ≤ b.val ∧ b.val ≤ 13) ∨ b = 34 ∨ b = 92 → quoteFlag l b = false := by
  decide

theorem quoteFlag_printable : ∀ (l : Bool) (b : Byte), 32 ≤ b.val → b.val ≤ 126 → b ≠ 34 →
    b ≠ 92 → ¬(l = true ∧ isHexDigit b = true) → quoteFlag l b = false := by
  decide

/-- C3: at every position holding one of the nine bytes with a short escape,
the iteration appends exactly the two characters of that escape, whatever was
emitted before, and `quote inp` is the output for the bytes before the position
(without its closing quote), these two characters, and the output for the bytes
after the position (without its opening quote); it is never the four-character
hexadecimal form. -/
theorem quote_short_escapes (inp : List Byte) (i : Nat) (b : Byte) (h : inp[i]? = some b) :
    (b = 7 → emittedAt inp i = [92, 97] ∧ quote inp =
      (quote (inp.take i)).dropLast ++ [92, 97] ++ (quote (inp.drop (i + 1))).tail) ∧
    (b = 8 → emittedAt inp i = [92, 98] ∧ quote inp =
      (quote (inp.take i)).dropLast ++ [92, 98] ++ (quote (inp.drop (i + 1))).tail) ∧
    (b = 9 → emittedAt inp i = [92, 116] ∧ quote inp =
      (quote (inp.take i)).dropLast ++ [92, 116] ++ (quote (inp.drop (i + 1))).tail) ∧
    (b = 10 → emittedAt inp i = [92, 110] ∧ quote inp =
      (quote (inp.take i)).dropLast ++ [92, 110] ++ (quote (inp.drop (i + 1))).tail) ∧
    (b = 11 → emittedAt inp i = [92, 118] ∧ quote inp =
      (quote (inp.take i)).dropLast ++ [92, 118] ++ (quote (inp.drop (i + 1))).tail) ∧
    (b = 12 → emittedAt inp i = [92, 102] ∧ quote inp =
      (quote (inp.take i)).dropLast ++ [92, 102] ++ (quote (inp.drop (i + 1))).tail) ∧
    (b = 13 → emittedAt inp i = [92, 114] ∧ quote inp =
      (quote (inp.take i)).dropLast ++ [92, 114] ++ (quote (inp.drop (i + 1))).tail) ∧
    (b = 34 → emittedAt inp i = [92, 34] ∧ quote inp =
      (quote (inp.take i)).dropLast ++ [92, 34] ++ (quote (inp.drop (i + 1))).tail) ∧
    (b = 92 → emittedAt inp i = [92, 92] ∧ quote inp =
      (quote (inp.take i)).dropLast ++ [92, 92] ++ (quote (inp.drop (i + 1))).tail) ∧
    ((7 ≤ b.val ∧ b.val ≤ 13) ∨ b = 34 ∨ b = 92 → emittedAt inp i ≠ hexEscape b) := by
  have hs := quoteUnit_short (stateAt inp i).lastWasHex
  have he := emittedAt_eq inp i b h
  have key : ∀ u : List Byte, (7 ≤ b.val ∧ b.val ≤ 13) ∨ b = 34 ∨ b = 92 →
      quoteUnit (stateAt inp i).lastWasHex b = u →
      emittedAt inp i = u ∧ quote inp =
        (quote (inp.take i)).dropLast ++ u ++ (quote (inp.drop (i + 1))).tail := by
    intro u hb hu
    have hem : emittedAt inp i = u := by rw [he, hu]
    refine ⟨hem, ?_⟩
    rw [← hem]
    exact quote_split_at_of_flag_false inp i b h (quoteFlag_short _ b hb)
  refine ⟨?_, ?_, ?_, ?_, ?_, ?_, ?_, ?_, ?_, ?_⟩
  · intro hb; exact key _ (by subst hb; decide) (by subst hb; exact hs.1)
  · intro hb; exact key _ (by subst hb; decide) (by subst hb; exact hs.2.1)
  · intro hb; exact key _ (by subst hb; decide) (by subst hb; exact hs.2.2.1)
  · intro hb; exact key _ (by subst hb; decide) (by subst hb; exact hs.2.2.2.1)
  · intro hb; exact key _ (by subst hb; decide) (by subst hb; exact hs.2.2.2.2.1)
  · intro hb; exact key _ (by subst hb; decide) (by subst hb; exact hs.2.2.2.2.2.1)
  · intro hb; exact key _ (by subst hb; decide) (by subst hb; exact hs.2.2.2.2.2.2.1)
  · intro hb; exact key _ (by subst hb; decide) (by subst hb; exact hs.2.2.2.2.2.2.2.1)
  · intro hb; exact key _ (by subst hb; decide) (by subst hb; exact hs.2.2.2.2.2.2.2.2)
  · intro hb
    rw [he]
    exact (quoteUnit_short_not_hex _ b hb).1

/-- Witness of C3: a newline directly after a hex-escaped NUL. -/
theorem quote_short_escapes_witness :
    ([0, 10] : List Byte)[1]? = some 10 ∧ emittedAt [0, 10] 1 = [92, 110] ∧
    quote [0, 10] = (quote (([0, 10] : List Byte).take 1)).dropLast ++ [92, 110] ++
      (quote (([0, 10] : List Byte).drop (1 + 1))).tail ∧
    quote [0, 10] = [34, 92, 120, 48, 48, 92, 110, 34] :=
  ⟨rfl, ((quote_short_escapes [0, 10] 1 10 rfl).2.2.2.1 rfl).1,
   ((quote_short_escapes [0, 10] 1 10 rfl).2.2.2.1 rfl).2, by decide⟩

/-- C9: a hexadecimal-digit byte at position `i` is emitted as a hexadecimal
escape exactly when `i > 0` and the byte at position `i - 1` was emitted as a
hexadecimal escape, and is emitted literally otherwise. Hence every byte of a
run of hexadecimal digits directly after a hex-escaped byte is hex-escaped, and
the two sample inputs have the bodies `\x00\x31\x32` and `\x00g1`. -/
theorem quote_lookback :
    (∀ (inp : List Byte) (i : Nat) (b : Byte), inp[i]? = some b → isHexDigit b = true →
      (emittedAt inp i = hexEscape b ↔ (0 < i ∧ hexEscapedAt inp (i - 1))) ∧
      (¬(0 < i ∧ hexEscapedAt inp (i - 1)) → emittedAt inp i = [b])) ∧
    (∀ (inp : List Byte) (i n : Nat), hexEscapedAt inp i →
      (∀ k, k < n → ∃ d, inp[i + 1 + k]? = some d ∧ isHexDigit d = true) →
      ∀ k, k < n → hexEscapedAt inp (i + 1 + k)) ∧
    quote [0, 49, 50] = [34, 92, 120, 48, 48, 92, 120, 51, 49, 92, 120, 51, 50, 34] ∧
    quote [0, 103, 49] = [34, 92, 120, 48, 48, 103, 49, 34] := by
  have main : ∀ (inp : List Byte) (i : Nat) (b : Byte), inp[i]? = some b →
      isHexDigit b = true →
      (emittedAt inp i = hexEscape b ↔ (0 < i ∧ hexEscapedAt inp (i - 1))) ∧
      (¬(0 < i ∧ hexEscapedAt inp (i - 1)) → emittedAt inp i = [b]) := by
    intro inp i b h hd
    have hi : i ≤ inp.length := by
      have := (List.getElem?_eq_some_iff.1 h).1
      omega
    have hl := lastWasHex_iff inp i hi
    have hf := quoteFlag_hexDigit (stateAt inp i).lastWasHex b hd
    rw [emittedAt_eq inp i b h, quoteFlag_iff, hf.1]
    refine ⟨hl, fun hn => hf.2 ?_⟩
    cases hs : (stateAt inp i).lastWasHex with
    | false => rfl
    | true => exact absurd (hl.1 hs) hn
  refine ⟨main, ?_, by decide, by decide⟩
  intro inp i n hi hrun k
  induction k with
  | zero =>
    intro hk
    obtain ⟨d, hd, hx⟩ := hrun 0 hk
    exact ⟨d, hd, ((main inp (i + 1 + 0) d hd hx).1).2 ⟨by omega, by simpa using hi⟩⟩
  | succ k ih =>
    intro hk
    obtain ⟨d, hd, hx⟩ := hrun (k + 1) hk
    have hprev := ih (by omega)
    exact ⟨d, hd, ((main inp (i + 1 + (k + 1)) d hd hx).1).2
      ⟨by omega, by simpa [← Nat.add_assoc] using hprev⟩⟩

/-- Witness of C9 at the input `[0, '1', '2']`. -/
theorem quote_lookback_witness :
    (emittedAt [0, 49, 50] 2 = hexEscape 50 ↔ (0 < 2 ∧ hexEscapedAt [0, 49, 50] (2 - 1))) ∧
    (emittedAt [0, 103, 49] 2 = hexEscape 49 ↔ (0 < 2 ∧ hexEscapedAt [0, 103, 49] (2 - 1))) ∧
    emittedAt [0, 49, 50] 2 = hexEscape 50 ∧
    emittedAt [0, 103, 49] 2 = [49] ∧
    hexEscapedAt [0, 49, 50] (0 + 1 + 1) :=
  ⟨(quote_lookback.1 [0, 49, 50] 2 50 rfl (by decide)).1,
   (quote_lookback.1 [0, 103, 49] 2 49 rfl (by decide)).1,
   by decide, by decide,
   quote_lookback.2.1 [0, 49, 50] 0 2 (by decide)
     (fun k hk => by
       have hk2 : k = 0 ∨ k = 1 := by omega
       rcases hk2 with rfl | rfl
       · exact ⟨49, rfl, by decide⟩
       · exact ⟨50, rfl, by decide⟩) 1 (by decide)⟩

/-- C10: a byte in [32, 126] that is neither the double quote nor the
backslash, and is not a hexadecimal digit directly after a hex-escaped byte, is
emitted as exactly one character, the byte itself: `quote inp` is the output for
the bytes before the position (without its closing quote), the byte, and the
output for the bytes after the position (without its opening quote). -/
theorem quote_printable (inp : List Byte) (i : Nat) (b : Byte) (h : inp[i]? = some b)
    (hlo : 32 ≤ b.val) (hhi : b.val ≤ 126) (hq : b ≠ 34) (hb : b ≠ 92)
    (hx : ¬(isHexDigit b = true ∧ 0 < i ∧ hexEscapedAt inp (i - 1))) :
    emittedAt inp i = [b] ∧
    quote inp = (quote (inp.take i)).dropLast ++ [b] ++ (quote (inp.drop (i + 1))).tail := by
  have hi : i ≤ inp.length := by
    have := (List.getElem?_eq_some_iff.1 h).1
    omega
  have hl : ¬((stateAt inp i).lastWasHex = true ∧ isHexDigit b = true) := by
    rintro ⟨hl, hd⟩
    exact hx ⟨hd, (lastWasHex_iff inp i hi).1 hl⟩
  have hem : emittedAt inp i = [b] := by
    rw [emittedAt_eq inp i b h]
    exact quoteUnit_printable _ b hlo hhi hq hb hl
  refine ⟨hem, ?_⟩
  rw [← hem]
  exact quote_split_at_of_flag_false inp i b h (quoteFlag_printable _ b hlo hhi hq hb hl)

/-- Witness of C10: the letter `g` directly after a hex-escaped NUL. -/
theorem quote_printable_witness :
    ([0, 103] : List Byte)[1]? = some 103 ∧ emittedAt [0, 103] 1 = [103] ∧
    quote [0, 103] = (quote (([0, 103] : List Byte).take 1)).dropLast ++ [103] ++
      (quote (([0, 103] : List Byte).drop (1 + 1))).tail ∧
    quote [0, 103] = [34, 92, 120, 48, 48, 103, 34] :=
  ⟨rfl, (quote_printable [0, 103] 1 103 rfl (by decide) (by decide) (by decide) (by decide)
    (by decide)).1,
   (quote_printable [0, 103] 1 103 rfl (by decide) (by decide) (by decide) (by decide)
    (by decide)).2, by decide⟩

theorem blocks_nil : blocks [] = [] := by
  simp [blocks, chunkSize]

theorem blocks_length (data : List Byte) :
    (blocks data).length = (data.length + 8191) / 8192 := by
  simp [blocks, chunkSize]

theorem blocks_getElem? (data : List Byte) (k : Nat) (hk : k < (data.length + 8191) / 8192) :
    (blocks data)[k]? = some (block data k) := by
  simp [blocks, chunkSize, List.getElem?_map, List.getElem?_range, hk]

theorem block_length (data : List Byte) (k : Nat) :
    (block data k).length = min 8192 (data.length - 8192 * k) := by
  simp [block, chunkSize]

theorem blocks_cons (data : List Byte) (h : 0 < data.length) :
    blocks data = data.take (if chunkSize > data.length then data.length else chunkSize) ::
      blocks (data.drop (if chunkSize > data.length then data.length else chunkSize)) := by
  by_cases hlt : chunkSize > data.length
  · simp only [hlt, if_true]
    have h1 : (data.length + (chunkSize - 1)) / chunkSize = 1 := by
      simp only [chunkSize] at hlt ⊢
      omega
    have h0 : (chunkSize - 1) / chunkSize = 0 := by decide
    simp [blocks, h1, block, h0, List.take_of_length_le (Nat.le_of_lt hlt), List.range_succ]
  · simp only [hlt, if_false]
    have hge : chunkSize ≤ data.length := Nat.le_of_not_gt hlt
    have h1 : (data.length + (chunkSize - 1)) / chunkSize =
        ((data.drop chunkSize).length + (chunkSize - 1)) / chunkSize + 1 := by
      simp only [chunkSize, List.length_drop] at hge ⊢
      omega
    unfold blocks
    rw [h1, List.range_succ_eq_map, List.map_cons, List.map_map]
    congr 1
    apply List.map_congr_left
    intro k _
    simp only [Function.comp, block, List.drop_drop, Nat.mul_succ]
    rw [Nat.add_comm]

theorem chunkLoop_eq_blocks (fuel : Nat) (data : List Byte) (h : data.length ≤ fuel) :
    chunkLoop fuel data = .ok (blocks data) := by
  induction fuel generalizing data with
  | zero =>
    have : data = [] := List.length_eq_zero.1 (Nat.le_zero.1 h)
    subst this
    simp [chunkLoop, blocks_nil]
  | succ fuel ih =>
    by_cases hpos : data.length > 0
    · have hc : (if chunkSize > data.length then data.length else chunkSize) ≤ data.length := by
        split <;> omega
      have hc1 : 1 ≤ (if chunkSize > data.length then data.length else chunkSize) := by
        split
        · omega
        · simp [chunkSize]
      have hrest : (data.drop (if chunkSize > data.length then data.length
          else chunkSize)).length ≤ fuel := by
        rw [List.length_drop]; omega
      rw [blocks_cons data hpos]
      simp only [chunkLoop, hpos, if_true, sliceTo, sliceFrom, hc, ih _ hrest]
    · have : data = [] := List.length_eq_zero.1 (by omega)
      subst this
      simp [chunkLoop, blocks_nil]

theorem chunkArgs_eq (data : List Byte) : chunkArgs data = .ok (blocks data) :=
  chunkLoop_eq_blocks _ _ (Nat.le_refl _)

theorem blocks_flatten_aux (n : Nat) :
    ∀ data : List Byte, data.length ≤ n → (blocks data).flatten = data := by
  induction n with
  | zero =>
    intro data h
    have : data = [] := List.length_eq_zero.1 (Nat.le_zero.1 h)
    subst this
    simp [blocks_nil]
  | succ n ih =>
    intro data h
    by_cases hpos : 0 < data.length
    · rw [blocks_cons data hpos, List.flatten_cons]
      have hc1 : 1 ≤ (if chunkSize > data.length then data.length else chunkSize) := by
        split
        · omega
        · simp [chunkSize]
      rw [ih _ (by rw [List.length_drop]; omega), List.take_append_drop]
    · have : data = [] := List.length_eq_zero.1 (by omega)
      subst this
      simp [blocks_nil]

theorem blocks_flatten (data : List Byte) : (blocks data).flatten = data :=
  blocks_flatten_aux data.length data (Nat.le_refl _)

theorem kData_eq (data : List Byte) : kData data = .ok ((blocks data).map quote) := by
  simp [kData, chunkArgs_eq]

theorem blocks_mem_length (data : List Byte) (c : List Byte) (hc : c ∈ blocks data) :
    1 ≤ c.length ∧ c.length ≤ 8192 := by
  simp only [blocks, List.mem_map, List.mem_range, chunkSize] at hc
  obtain ⟨k, hk, rfl⟩ := hc
  rw [block_length]
  omega

theorem blocks_sum_length (data : List Byte) :
    ((blocks data).map List.length).sum = data.length := by
  have h := congrArg List.length (blocks_flatten data)
  rw [List.length_flatten] at h
  exact h

/-- C4: the chunk loop emits `ceil(L / 8192)` quoted chunks for content of
length `L` (the number `n` with `L ≤ 8192 * n < L + 8192`), none exactly when
`L = 0`, one for `L = 8192`, and two for `L = 8193`, the second slice holding
one byte. -/
theorem chunk_count :
    (∀ data : List Byte, ∃ lits, kData data = .ok lits ∧
      lits.length = (data.length + 8191) / 8192 ∧
      data.length ≤ 8192 * lits.length ∧ 8192 * lits.length < data.length + 8192 ∧
      (lits.length = 0 ↔ data.length = 0)) ∧
    (∀ data : List Byte, data.length = 8192 → ∃ c, chunkArgs data = .ok [c] ∧
      kData data = .ok [quote c]) ∧
    (∀ data : List Byte, data.length = 8193 → ∃ c₁ c₂, chunkArgs data = .ok [c₁, c₂] ∧
      kData data = .ok [quote c₁, quote c₂] ∧ c₂.length = 1) := by
  refine ⟨?_, ?_, ?_⟩
  · intro data
    have hl : ((blocks data).map quote).length = (data.length + 8191) / 8192 := by
      rw [List.length_map, blocks_length]
    refine ⟨_, kData_eq data, hl, ?_, ?_, ?_⟩
    · rw [hl]; omega
    · rw [hl]; omega
    · rw [hl]; constructor <;> intro h0 <;> omega
  · intro data h
    have hb : blocks data = [block data 0] := by
      simp [blocks, h, chunkSize, List.range_succ]
    exact ⟨block data 0, by rw [chunkArgs_eq, hb], by rw [kData_eq, hb]; rfl⟩
  · intro data h
    have hb : blocks data = [block data 0, block data 1] := by
      simp [blocks, h, chunkSize, List.range_succ]
    refine ⟨block data 0, block data 1, by rw [chunkArgs_eq, hb], by rw [kData_eq, hb]; rfl, ?_⟩
    rw [block_length, h]
    decide

/-- Witness of C4 at contents of 8192 and 8193 zero bytes. -/
theorem chunk_count_witness :
    (∃ c, chunkArgs (List.replicate 8192 0) = .ok [c] ∧
      kData (List.replicate 8192 0) = .ok [quote c]) ∧
    (∃ c₁ c₂, chunkArgs (List.replicate 8193 0) = .ok [c₁, c₂] ∧
      kData (List.replicate 8193 0) = .ok [quote c₁, quote c₂] ∧ c₂.length = 1) :=
  ⟨chunk_count.2.1 (List.replicate 8192 0) (List.length_replicate _ _),
   chunk_count.2.2 (List.replicate 8193 0) (List.length_replicate _ _)⟩

/-- C5: the slices passed to `quote` by the chunk loop, concatenated in
order, are the content, and their lengths add up to the length printed as
`kLen`. -/
theorem chunks_partition (data : List Byte) :
    ∃ cs, chunkArgs data = .ok cs ∧ cs.flatten = data ∧
      (cs.map List.length).sum = kLen data :=
  ⟨blocks data, chunkArgs_eq data, blocks_flatten data, blocks_sum_length data⟩

/-- C6: every slice passed to `quote` by the chunk loop has between 1 and 8192
bytes, and every slice that is not the last has exactly 8192 bytes. -/
theorem chunk_size_bounds (data : List Byte) :
    ∃ cs, chunkArgs data = .ok cs ∧
      (∀ c ∈ cs, 1 ≤ c.length ∧ c.length ≤ chunkSize) ∧
      (∀ k, k + 1 < cs.length → ∃ c, cs[k]? = some c ∧ c.length = chunkSize) := by
  refine ⟨blocks data, chunkArgs_eq data, blocks_mem_length data, ?_⟩
  intro k hk
  rw [blocks_length] at hk
  refine ⟨block data k, blocks_getElem? data k (by omega), ?_⟩
  rw [block_length, chunkSize]
  omega

theorem decodeAll_map_quote (cs : List (List Byte)) :
    decodeAll (cs.map quote) = some cs := by
  induction cs with
  | nil => rfl
  | cons c cs ih => simp [decodeAll, cppDecode_quote, ih]

theorem assembleLoop_blocks (data : List Byte) (fuel k : Nat)
    (hf : data.length ≤ fuel + 8192 * k) :
    assembleLoop fuel (blocks data) data.length (8192 * k) (data.take (8192 * k)) =
      .ok data := by
  induction fuel generalizing k with
  | zero =>
    have hlt : ¬(8192 * k < data.length) := by omega
    simp [assembleLoop, hlt, List.take_of_length_le (Nat.le_of_not_lt hlt)]
  | succ fuel ih =>
    by_cases hlt : 8192 * k < data.length
    · have hk : k < (data.length + 8191) / 8192 := by omega
      have hidx : 8192 * k / chunkSize = k := by
        simp [chunkSize]
      have hlen : min chunkSize (data.length - 8192 * k) ≤ (block data k).length := by
        rw [block_length, chunkSize]
      have htake : data.take (8192 * k) ++
          (block data k).take (min chunkSize (data.length - 8192 * k)) =
          data.take (8192 * (k + 1)) := by
        have h1 : (block data k).take (min chunkSize (data.length - 8192 * k)) =
            block data k := by
          apply List.take_of_length_le
          rw [block_length, chunkSize]
        rw [h1, block, chunkSize, Nat.mul_succ, List.take_add]
      simp only [assembleLoop, hlt, if_true, hidx, blocks_getElem? data k hk, hlen, htake]
      have := ih (k + 1) (by omega)
      rw [Nat.mul_succ] at this
      simpa [chunkSize, Nat.mul_succ] using this
    · simp [assembleLoop, hlt, List.take_of_length_le (Nat.le_of_not_lt hlt)]

theorem AssembleString_blocks (data : List Byte) :
    AssembleString (blocks data) data.length = .ok data := by
  have h := assembleLoop_blocks data data.length 0 (by omega)
  simpa [AssembleString] using h

/-- C7: the generated `AssembleString`, run on the decoded chunk literals of a
content and on its `kLen`, returns the content; every index `i / 8192` it uses
is inside the array, and every prefix it appends is no longer than the decoded
literal. This holds for empty content and for content with NUL bytes alike. -/
theorem assemble_reconstructs (data : List Byte) :
    ∃ lits arr, kData data = .ok lits ∧ decodeAll lits = some arr ∧
      AssembleString arr (kLen data) = .ok data ∧
      (∀ i, i < kLen data → i % chunkSize = 0 →
        ∃ s, arr[i / chunkSize]? = some s ∧ min chunkSize (kLen data - i) ≤ s.length) := by
  refine ⟨(blocks data).map quote, blocks data, kData_eq data, decodeAll_map_quote _,
    AssembleString_blocks data, ?_⟩
  intro i hi hmod
  simp only [kLen, chunkSize] at hi hmod ⊢
  have hk : i / 8192 < (data.length + 8191) / 8192 := by omega
  refine ⟨block data (i / 8192), blocks_getElem? data _ hk, ?_⟩
  rw [block_length]
  omega

theorem strcmpEq_iff (a b : List Byte) (ha : (0 : Byte) ∉ a) (hb : (0 : Byte) ∉ b) :
    strcmpEq a b = true ↔ a = b := by
  induction a generalizing b with
  | nil =>
    cases b with
    | nil => simp [strcmpEq]
    | cons y ys =>
      have : y ≠ 0 := fun h => hb (by simp [h])
      simp [strcmpEq, this]
  | cons x xs ih =>
    have hx : x ≠ 0 := fun h => ha (by simp [h])
    have hxs : (0 : Byte) ∉ xs := fun h => ha (List.mem_cons_of_mem _ h)
    cases b with
    | nil => simp [strcmpEq, hx]
    | cons y ys =>
      have hys : (0 : Byte) ∉ ys := fun h => hb (List.mem_cons_of_mem _ h)
      by_cases hxy : x = y
      · subst hxy
        simp [strcmpEq, hx, ih ys hxs hys]
      · simp [strcmpEq, hxy]

theorem assembled_eq (content : List Byte) : assembled content = .found content := by
  simp [assembled, kData_eq, decodeAll_map_quote, kLen, AssembleString_blocks]

theorem lookupChain_cons (e : Entry) (rest : List Entry) (p : List Byte)
    (he : (0 : Byte) ∉ e.key) (hp : (0 : Byte) ∉ p) :
    lookupChain (e :: rest) p = if e.key = p then .found e.content else lookupChain rest p := by
  have h := strcmpEq_iff p e.key hp he
  by_cases hk : e.key = p
  · have hs : strcmpEq p p = true := by
      have := h.2 hk.symm
      rwa [hk] at this
    simp [lookupChain, cppDecode_quote, assembled_eq, hk, hs]
  · have : strcmpEq p e.key = false := by
      cases hs : strcmpEq p e.key with
      | false => rfl
      | true => exact absurd (h.1 hs).symm hk
    simp [lookupChain, cppDecode_quote, hk, this]

/-- With NUL-free keys and a NUL-free path `p`, the chain of comparisons returns
the content of the first entry whose key is `p`, and it reaches the abort
branch, reporting `p`, exactly when no key is `p`. -/
theorem lookupChain_first_match (entries : List Entry) (p : List Byte)
    (hkeys : ∀ e ∈ entries, (0 : Byte) ∉ e.key) (hp : (0 : Byte) ∉ p) :
    lookupChain entries p =
      (match entries.find? (fun e => decide (e.key = p)) with
       | some e => .found e.content
       | none => .abort p) ∧
    (lookupChain entries p = .abort p ↔ ∀ e ∈ entries, e.key ≠ p) := by
  induction entries with
  | nil => simp [lookupChain]
  | cons e rest ih =>
    have he : (0 : Byte) ∉ e.key := hkeys e (List.mem_cons_self _ _)
    have hrest : ∀ x ∈ rest, (0 : Byte) ∉ x.key := fun x hx =>
      hkeys x (List.mem_cons_of_mem _ hx)
    obtain ⟨ih1, ih2⟩ := ih hrest
    rw [lookupChain_cons e rest p he hp]
    by_cases hk : e.key = p
    · simp [hk]
    · refine ⟨?_, ?_⟩
      · simp [hk, ih1, List.find?_cons]
      · simp only [hk, if_false, List.mem_cons, forall_eq_or_imp, ne_eq, not_false_eq_true,
          true_and]
        exact ih2

theorem requiresHex_iff : ∀ b : Byte,
    (b.val ≤ 6 ∨ (14 ≤ b.val ∧ b.val ≤ 31) ∨ 127 ≤ b.val) ↔ requiresHex b := by
  decide

theorem hexEscape_digits : ∀ b : Byte,
    isLowerHexChar (hexDigit (b.val / 16)) = true ∧
    isLowerHexChar (hexDigit (b.val % 16)) = true ∧
    hexVal (hexDigit (b.val / 16)) = b.val / 16 ∧
    hexVal (hexDigit (b.val % 16)) = b.val % 16 := by
  decide

theorem quoteUnit_all_printable : ∀ (l : Bool) (b : Byte),
    (quoteUnit l b).all (fun c => decide (32 ≤ c.val) && decide (c.val ≤ 126)) = true := by
  decide

theorem quoteUnit_alphabet (l : Bool) (b : Byte) :
    ∀ c ∈ quoteUnit l b, 32 ≤ c.val ∧ c.val ≤ 126 := by
  intro c hc
  have h := List.all_eq_true.1 (quoteUnit_all_printable l b) c hc
  simpa using h

theorem quoteUnit_length : ∀ (l : Bool) (b : Byte),
    1 ≤ (quoteUnit l b).length ∧ (quoteUnit l b).length ≤ 4 := by
  decide

theorem quoteBody_alphabet (bs : List Byte) (l : Bool) :
    ∀ c ∈ quoteBody l bs, 32 ≤ c.val ∧ c.val ≤ 126 := by
  induction bs generalizing l with
  | nil => simp [quoteBody]
  | cons b bs ih =>
    intro c hc
    rw [quoteBody, List.mem_append] at hc
    rcases hc with hc | hc
    · exact quoteUnit_alphabet l b c hc
    · exact ih _ c hc

theorem quoteBody_length (bs : List Byte) (l : Bool) :
    bs.length ≤ (quoteBody l bs).length ∧ (quoteBody l bs).length ≤ 4 * bs.length := by
  induction bs generalizing l with
  | nil => simp [quoteBody]
  | cons b bs ih =>
    have h1 := quoteUnit_length l b
    have h2 := ih (quoteFlag l b)
    simp only [quoteBody, List.length_append, List.length_cons]
    omega

theorem quote_length_bounds (b : List Byte) :
    b.length + 2 ≤ (quote b).length ∧ (quote b).length ≤ 4 * b.length + 2 := by
  have h := quoteBody_length b false
  rw [quote_eq_body]
  simp only [List.length_cons, List.length_append, List.length_nil]
  omega

/-- C11: at every position whose byte is in 0..6, 14..31 or 127..255, `quote`
emits exactly four characters: the backslash, `x`, and the value of the byte as
two lowercase hexadecimal digits, the high nibble first. `quote inp` is the
output for the bytes before the position (without its closing quote), these
four characters, and the text written for the bytes after the position with
`lastWasHex` set, up to the closing quote. -/
theorem quote_hex_form (inp : List Byte) (i : Nat) (b : Byte) (h : inp[i]? = some b)
    (hb : b.val ≤ 6 ∨ (14 ≤ b.val ∧ b.val ≤ 31) ∨ 127 ≤ b.val) :
    ∃ hi lo : Byte, emittedAt inp i = [92, 120, hi, lo] ∧
      quote inp = (quote (inp.take i)).dropLast ++ [92, 120, hi, lo] ++
        (quoteBody true (inp.drop (i + 1)) ++ [34]) ∧
      (quote inp).length = (quote (inp.take i)).length + 4 +
        (quoteBody true (inp.drop (i + 1))).length ∧
      isLowerHexChar hi = true ∧ isLowerHexChar lo = true ∧
      hexVal hi = b.val / 16 ∧ hexVal lo = b.val % 16 ∧
      16 * hexVal hi + hexVal lo = b.val := by
  have hr : requiresHex b := (requiresHex_iff b).1 hb
  have hd := hexEscape_digits b
  have hu := quoteUnit_requiresHex (stateAt inp i).lastWasHex b hr
  have hem : emittedAt inp i = [92, 120, hexDigit (b.val / 16), hexDigit (b.val % 16)] := by
    rw [emittedAt_eq inp i b h, hu.1, hexEscape]
  have hq : quote inp = (quote (inp.take i)).dropLast ++
      [92, 120, hexDigit (b.val / 16), hexDigit (b.val % 16)] ++
      (quoteBody true (inp.drop (i + 1)) ++ [34]) := by
    rw [← hem, ← hu.2]
    exact quote_split_at inp i b h
  refine ⟨hexDigit (b.val / 16), hexDigit (b.val % 16), hem, hq, ?_, hd.1, hd.2.1,
    hd.2.2.1, hd.2.2.2, ?_⟩
  · have h2 : 2 ≤ (quote (inp.take i)).length := by
      have := (quote_length_bounds (inp.take i)).1
      omega
    rw [hq]
    simp only [List.length_append, List.length_dropLast, List.length_cons, List.length_nil]
    omega
  · rw [hd.2.2.1, hd.2.2.2]
    omega

/-- Witness of C11: the byte 0xab after a printable byte is written `\xab`. -/
theorem quote_hex_form_witness :
    ([103, 171] : List Byte)[1]? = some 171 ∧
    quote [103, 171] = [34, 103, 92, 120, 97, 98, 34] ∧
    ∃ hi lo : Byte, emittedAt [103, 171] 1 = [92, 120, hi, lo] ∧
      quote [103, 171] = (quote (([103, 171] : List Byte).take 1)).dropLast ++
        [92, 120, hi, lo] ++ (quoteBody true (([103, 171] : List Byte).drop (1 + 1)) ++ [34]) ∧
      (quote [103, 171]).length = (quote (([103, 171] : List Byte).take 1)).length + 4 +
        (quoteBody true (([103, 171] : List Byte).drop (1 + 1))).length ∧
      isLowerHexChar hi = true ∧ isLowerHexChar lo = true ∧
      hexVal hi = (171 : Byte).val / 16 ∧ hexVal lo = (171 : Byte).val % 16 ∧
      16 * hexVal hi + hexVal lo = (171 : Byte).val :=
  ⟨rfl, by decide, quote_hex_form [103, 171] 1 171 rfl (by decide)⟩

/-- C13: `quote b` has at least two characters, its first and its last
character are the double quote, and `quote` of the empty sequence is the two
double quotes. -/
theorem quote_delimiters :
    (∀ b : List Byte, 2 ≤ (quote b).length ∧ (quote b).head? = some 34 ∧
      (quote b).getLast? = some 34) ∧
    quote [] = [34, 34] := by
  refine ⟨fun b => ⟨?_, ?_, ?_⟩, rfl⟩
  · have := (quote_length_bounds b).1
    omega
  · rw [quote_eq_body]; rfl
  · simp [quote]

/-- C15: every character of `quote b` is a printable ASCII character, with a
value in [32, 126]. -/
theorem quote_alphabet (b : List Byte) : ∀ c ∈ quote b, 32 ≤ c.val ∧ c.val ≤ 126 := by
  intro c hc
  rw [quote_eq_body] at hc
  simp only [List.mem_cons, List.mem_append, List.mem_singleton, List.not_mem_nil,
    or_false] at hc
  rcases hc with rfl | hc | rfl
  · decide
  · exact quoteBody_alphabet b false c hc
  · decide

/-- Witness of C15: the backslash in the output for a NUL byte. -/
theorem quote_alphabet_witness :
    (92 : Byte) ∈ quote [0] ∧ 32 ≤ (92 : Byte).val ∧ (92 : Byte).val ≤ 126 :=
  ⟨by decide, quote_alphabet [0] 92 (by decide)⟩

/-- C16: `quote b` has at least `n + 2` and at most `4 * n + 2` characters for
an input of `n` bytes, so every chunk literal `main` emits has at most 32770
characters. -/
theorem quote_length :
    (∀ b : List Byte, b.length + 2 ≤ (quote b).length ∧
      (quote b).length ≤ 4 * b.length + 2) ∧
    (∀ data : List Byte, ∃ lits, kData data = .ok lits ∧
      ∀ l ∈ lits, l.length ≤ 4 * chunkSize + 2 ∧ l.length ≤ 32770) := by
  refine ⟨quote_length_bounds, fun data => ⟨_, kData_eq data, ?_⟩⟩
  intro l hl
  rw [List.mem_map] at hl
  obtain ⟨c, hc, rfl⟩ := hl
  have h1 := (blocks_mem_length data c hc).2
  have h2 := (quote_length_bounds c).2
  simp only [chunkSize]
  omega

theorem chunk_bounds (data : List Byte) (hpos : 0 < data.length) :
    1 ≤ (if chunkSize > data.length then data.length else chunkSize) ∧
    (if chunkSize > data.length then data.length else chunkSize) ≤ data.length := by
  simp only [chunkSize]
  split <;> omega

theorem chunkLoop_succ (fuel : Nat) (data : List Byte) (hpos : 0 < data.length) :
    chunkLoop (fuel + 1) data =
      match chunkLoop fuel
        (data.drop (if chunkSize > data.length then data.length else chunkSize)) with
      | .ok out => .ok (data.take (if chunkSize > data.length then data.length
          else chunkSize) :: out)
      | .outOfFuel => .outOfFuel
      | .outOfRange => .outOfRange := by
  have hc := (chunk_bounds data hpos).2
  have hp : data.length > 0 := hpos
  cases hrest : chunkLoop fuel (data.drop (if chunkSize > data.length then data.length
    else chunkSize)) <;>
    simp only [chunkLoop, hp, if_true, sliceTo, sliceFrom, hc, hrest]

theorem chunkLoop_iterations (fuel : Nat) (data : List Byte) :
    chunkLoop fuel data =
      if (data.length + 8191) / 8192 ≤ fuel then .ok (blocks data) else .outOfFuel := by
  induction fuel generalizing data with
  | zero =>
    by_cases hpos : 0 < data.length
    · have hp : data.length > 0 := hpos
      have : ¬((data.length + 8191) / 8192 ≤ 0) := by omega
      simp [chunkLoop, hp, this]
    · have : data = [] := List.length_eq_zero.1 (by omega)
      subst this
      simp [chunkLoop, blocks_nil]
  | succ fuel ih =>
    by_cases hpos : 0 < data.length
    · rw [chunkLoop_succ fuel data hpos, ih, blocks_cons data hpos]
      have hb := chunk_bounds data hpos
      have hiff : ((data.drop (if chunkSize > data.length then data.length
          else chunkSize)).length + 8191) / 8192 ≤ fuel ↔
          (data.length + 8191) / 8192 ≤ fuel + 1 := by
        rw [List.length_drop]
        simp only [chunkSize] at hb ⊢
        split <;> omega
      by_cases hf : (data.length + 8191) / 8192 ≤ fuel + 1
      · rw [if_pos (hiff.2 hf), if_pos hf]
      · rw [if_neg (fun h => hf (hiff.1 h)), if_neg hf]
    · have : data = [] := List.length_eq_zero.1 (by omega)
      subst this
      simp [chunkLoop, blocks_nil]

/-- C17: the loop `for len(data) > 0` terminates: with at least
`ceil(len / 8192)` iterations allowed it finishes with a result, and with fewer
it is still running. In every iteration on non-empty data, `chunk` is
`min(8192, len(data))`, at least 1, both slice expressions are within range, and
the data left is strictly shorter. -/
theorem chunk_loop_terminates :
    (∀ (fuel : Nat) (data : List Byte), (data.length + 8191) / 8192 ≤ fuel →
      ∃ cs, chunkLoop fuel data = .ok cs) ∧
    (∀ (fuel : Nat) (data : List Byte), fuel < (data.length + 8191) / 8192 →
      chunkLoop fuel data = .outOfFuel) ∧
    (∀ data : List Byte, 0 < data.length →
      ∃ chunk head rest, chunk = min chunkSize data.length ∧ 1 ≤ chunk ∧
        chunk ≤ data.length ∧
        sliceTo data chunk = some head ∧ sliceFrom data chunk = some rest ∧
        rest.length + chunk = data.length ∧ rest.length < data.length ∧
        ∀ fuel, chunkLoop (fuel + 1) data =
          match chunkLoop fuel rest with
          | .ok out => .ok (head :: out)
          | .outOfFuel => .outOfFuel
          | .outOfRange => .outOfRange) := by
  refine ⟨?_, ?_, ?_⟩
  · intro fuel data h
    exact ⟨blocks data, by rw [chunkLoop_iterations, if_pos h]⟩
  · intro fuel data h
    rw [chunkLoop_iterations, if_neg (by omega)]
  · intro data hpos
    have hb := chunk_bounds data hpos
    refine ⟨_, _, _, ?_, hb.1, hb.2, ?_, ?_, ?_, ?_, fun fuel => chunkLoop_succ fuel data hpos⟩
    · simp only [chunkSize]
      split <;> omega
    · simp [sliceTo, hb.2]
    · simp [sliceFrom, hb.2]
    · rw [List.length_drop]; omega
    · rw [List.length_drop]; omega

/-- Witness of C17 at a content of three bytes. -/
theorem chunk_loop_terminates_witness :
    (∃ cs, chunkLoop 1 [1, 2, 3] = .ok cs) ∧
    chunkLoop 0 [1, 2, 3] = .outOfFuel ∧
    (∃ chunk head rest, chunk = min chunkSize ([1, 2, 3] : List Byte).length ∧ 1 ≤ chunk ∧
        chunk ≤ ([1, 2, 3] : List Byte).length ∧
        sliceTo [1, 2, 3] chunk = some head ∧ sliceFrom [1, 2, 3] chunk = some rest ∧
        rest.length + chunk = ([1, 2, 3] : List Byte).length ∧
        rest.length < ([1, 2, 3] : List Byte).length ∧
        ∀ fuel, chunkLoop (fuel + 1) [1, 2, 3] =
          match chunkLoop fuel rest with
          | .ok out => .ok (head :: out)
          | .outOfFuel => .outOfFuel
          | .outOfRange => .outOfRange) :=
  ⟨chunk_loop_terminates.1 1 [1, 2, 3] (by decide),
   chunk_loop_terminates.2.1 0 [1, 2, 3] (by decide),
   chunk_loop_terminates.2.2 [1, 2, 3] (by decide)⟩

theorem modifyHead_self (l : List (List Byte)) :
    l.modifyHead (fun x => x) = l := by
  cases l <;> rfl

/-- What `strings.FieldsFunc` returns from a state of its loop. -/
theorem fieldsFunc_fold (f : Byte → Bool) (s : List Byte) (fs : List (List Byte))
    (cur : Option (List Byte)) (hcur : ∀ w, cur = some w → w ≠ []) :
    (match (s.foldl (fieldsStep f) ⟨fs, cur⟩).cur with
      | some w => (s.foldl (fieldsStep f) ⟨fs, cur⟩).fields ++ [w]
      | none => (s.foldl (fieldsStep f) ⟨fs, cur⟩).fields) =
    fs ++ (((s.splitOnP f).modifyHead (fun x => cur.getD [] ++ x)).filter
      (fun w => !w.isEmpty)) := by
  induction s generalizing fs cur with
  | nil =>
    cases cur with
    | none => simp [List.splitOnP_nil]
    | some w =>
      have hw : w ≠ [] := hcur w rfl
      simp [List.splitOnP_nil, hw]
  | cons b s ih =>
    rw [List.foldl_cons, List.splitOnP_cons]
    by_cases hb : f b = true
    · cases cur with
      | none =>
        have hstep : fieldsStep f ⟨fs, none⟩ b = ⟨fs, none⟩ := by simp [fieldsStep, hb]
        rw [hstep, ih fs none (by simp)]
        simp only [hb, if_true, Option.getD_none, List.nil_append, List.modifyHead_cons,
          modifyHead_self]
        simp
      | some w =>
        have hw : w ≠ [] := hcur w rfl
        have hstep : fieldsStep f ⟨fs, some w⟩ b = ⟨fs ++ [w], none⟩ := by
          simp [fieldsStep, hb]
        rw [hstep, ih (fs ++ [w]) none (by simp)]
        simp only [hb, if_true, Option.getD_none, Option.getD_some, List.nil_append,
          List.modifyHead_cons, modifyHead_self]
        simp [hw]
    · cases cur with
      | none =>
        have hstep : fieldsStep f ⟨fs, none⟩ b = ⟨fs, some [b]⟩ := by simp [fieldsStep, hb]
        rw [hstep, ih fs (some [b]) (by simp)]
        simp only [hb, Bool.false_eq_true, if_false, List.modifyHead_modifyHead]
        rfl
      | some w =>
        have hstep : fieldsStep f ⟨fs, some w⟩ b = ⟨fs, some (w ++ [b])⟩ := by
          simp [fieldsStep, hb]
        rw [hstep, ih fs (some (w ++ [b])) (by simp)]
        simp only [hb, Bool.false_eq_true, if_false, List.modifyHead_modifyHead]
        have hfun : (fun x => (some (w ++ [b])).getD [] ++ x) =
            (fun x => (some w).getD [] ++ x) ∘ List.cons b := by
          funext x
          simp
        rw [hfun]

theorem FieldsFunc_eq_splitDropEmpty (text : List Byte) :
    FieldsFunc text isLineBreak = splitDropEmpty text := by
  have h := fieldsFunc_fold isLineBreak text [] none (by simp)
  simp only [FieldsFunc, splitDropEmpty]
  rw [h]
  simp only [Option.getD_none, List.nil_append, modifyHead_self]

theorem splitOnP_no_sep (f : Byte → Bool) (s : List Byte) :
    ∀ w ∈ s.splitOnP f, ∀ x ∈ w, f x = false := by
  induction s with
  | nil => simp [List.splitOnP_nil]
  | cons b s ih =>
    rw [List.splitOnP_cons]
    by_cases hb : f b = true
    · simp only [hb, if_true, List.mem_cons]
      rintro w (rfl | hw)
      · simp
      · exact ih w hw
    · simp only [hb]
      cases hs : s.splitOnP f with
      | nil => simp
      | cons w0 ws =>
        rw [hs] at ih
        simp only [Bool.false_eq_true, if_false, List.modifyHead_cons, List.mem_cons]
        rintro w (rfl | hw)
        · intro x hx
          rcases List.mem_cons.1 hx with rfl | hx
          · simpa using hb
          · exact ih w0 (List.mem_cons_self _ _) x hx
        · exact ih w (List.mem_cons_of_mem _ hw)

theorem splitDropEmpty_mem (text : List Byte) :
    ∀ w ∈ splitDropEmpty text, w ≠ [] ∧ (13 : Byte) ∉ w ∧ (10 : Byte) ∉ w := by
  intro w hw
  simp only [splitDropEmpty, List.mem_filter] at hw
  have hsep := splitOnP_no_sep isLineBreak text w hw.1
  refine ⟨?_, ?_, ?_⟩
  · intro h
    rw [h] at hw
    simp at hw
  · intro h
    have := hsep 13 h
    simp [isLineBreak] at this
  · intro h
    have := hsep 10 h
    simp [isLineBreak] at this

/-- C14: with a list file given, the file list is the text of the list file
split at every carriage return and line feed with the empty pieces dropped,
followed by the positional arguments; no entry from the list file is empty or
holds a carriage return or line feed. With an empty flag the file list is the
positional arguments. -/
theorem file_list_assembly :
    (∀ (fileList text : List Byte) (args : List (List Byte)), fileList ≠ [] →
      mainFiles fileList (some text) args = some (splitDropEmpty text ++ args)) ∧
    (∀ text : List Byte, ∀ w ∈ splitDropEmpty text,
      w ≠ [] ∧ (13 : Byte) ∉ w ∧ (10 : Byte) ∉ w) ∧
    (∀ (read : Option (List Byte)) (args : List (List Byte)),
      mainFiles [] read args = some args) := by
  refine ⟨?_, splitDropEmpty_mem, ?_⟩
  · intro fileList text args hne
    have hlen : fileList.length ≠ 0 := fun h => hne (List.length_eq_zero.1 h)
    simp only [mainFiles, hlen, ne_eq, not_false_eq_true, if_true,
      FieldsFunc_eq_splitDropEmpty]
  · intro read args
    simp [mainFiles]

/-- Witness of C14: the list file `a`, CR, LF, LF, `b` with flag `l` and the
argument `c` gives the files `a`, `b`, `c`. -/
theorem file_list_assembly_witness :
    mainFiles [108] (some [97, 13, 10, 10, 98]) [[99]] =
      some (splitDropEmpty [97, 13, 10, 10, 98] ++ [[99]]) ∧
    splitDropEmpty [97, 13, 10, 10, 98] = [[97], [98]] ∧
    (([97] : List Byte) ≠ [] ∧ (13 : Byte) ∉ ([97] : List Byte) ∧
      (10 : Byte) ∉ ([97] : List Byte)) :=
  ⟨file_list_assembly.1 [108] [97, 13, 10, 10, 98] [[99]] (by decide),
   by decide,
   file_list_assembly.2.1 [97, 13, 10, 10, 98] [97] (by decide)⟩

theorem literalBody_quote (c : List Byte) : literalBody (quote c) = quoteBody false c := by
  simp [literalBody, quote_eq_body]

theorem concatBodies_map_quote (cs : List (List Byte)) :
    concatBodies (cs.map quote) = (cs.map (quoteBody false)).flatten := by
  simp only [concatBodies, List.map_map]
  congr 1
  apply List.map_congr_left
  intro c _
  exact literalBody_quote c

theorem quoteBody_replicate_g (n : Nat) (rest : List Byte) :
    quoteBody false (List.replicate n 103 ++ rest) =
      List.replicate n 103 ++ quoteBody false rest := by
  induction n with
  | zero => simp
  | succ n ih =>
    rw [List.replicate_succ, List.cons_append, quoteBody]
    have h1 : quoteUnit false 103 = [103] := by decide
    have h2 : quoteFlag false 103 = false := by decide
    rw [h1, h2, ih]
    rfl

theorem decRun_replicate_g (n : Nat) (rest : List Byte) :
    decRun .body (List.replicate n 103 ++ rest) =
      ((decRun .body rest).1, List.replicate n 103 ++ (decRun .body rest).2) := by
  induction n with
  | zero => simp
  | succ n ih =>
    rw [List.replicate_succ, List.cons_append, decRun]
    have h1 : decStep .body 103 = (.body, [103]) := by decide
    rw [h1]
    simp only [ih]
    rfl

theorem blocks_boundaryOf (n : Nat) (y : Byte) (hn : n = 8191) :
    blocks (boundaryOf n y) = [List.replicate n 103 ++ [0], [y]] := by
  have hlen : (boundaryOf n y).length = n + 2 := by
    simp only [boundaryOf, List.length_append, List.length_replicate, List.length_cons,
      List.length_nil]
  have hcnt : ((boundaryOf n y).length + (chunkSize - 1)) / chunkSize = 2 := by
    rw [hlen]
    simp only [chunkSize]
    omega
  have hb : blocks (boundaryOf n y) = [block (boundaryOf n y) 0, block (boundaryOf n y) 1] := by
    unfold blocks
    rw [hcnt]
    rfl
  have hfl := blocks_flatten (boundaryOf n y)
  rw [hb] at hfl
  simp only [List.flatten_cons, List.flatten_nil, List.append_nil] at hfl
  have hsplit : boundaryOf n y = (List.replicate n 103 ++ [0]) ++ [y] := by
    simp only [boundaryOf, List.append_assoc, List.singleton_append]
  have hl0 : (block (boundaryOf n y) 0).length =
      (List.replicate n (103 : Byte) ++ [0]).length := by
    rw [block_length, hlen]
    simp only [List.length_append, List.length_replicate, List.length_cons, List.length_nil]
    omega
  have hfl2 : block (boundaryOf n y) 0 ++ block (boundaryOf n y) 1 =
      (List.replicate n 103 ++ [0]) ++ [y] := by
    rw [hfl]
    exact hsplit
  have := List.append_inj hfl2 hl0
  rw [hb, this.1, this.2]

theorem concatBodies_boundaryOf (n : Nat) (hn : n = 8191) :
    concatBodies ((blocks (boundaryOf n 49)).map quote) =
      List.replicate n 103 ++ [92, 120, 48, 48, 49] := by
  rw [concatBodies_map_quote, blocks_boundaryOf n 49 hn]
  simp only [List.map_cons, List.map_nil, List.flatten_cons, List.flatten_nil,
    List.append_nil, quoteBody_replicate_g]
  have h1 : quoteBody false [0] = [92, 120, 48, 48] := by decide
  have h2 : quoteBody false [49] = [49] := by decide
  rw [h1, h2, List.append_assoc]
  rfl

theorem cppDecodeBody_merged (n : Nat) :
    cppDecodeBody (List.replicate n 103 ++ [92, 120, 48, 48, 49]) =
      some (List.replicate n 103 ++ [1]) := by
  have h0 : decStep .start 34 = (.body, []) := by decide
  have h1 : decRun .body ([92, 120, 48, 48, 49] ++ [34]) = (.done, [1]) := by decide
  have hrun : decRun .start (34 :: ((List.replicate n 103 ++ [92, 120, 48, 48, 49]) ++ [34])) =
      (.done, List.replicate n 103 ++ [1]) := by
    rw [decRun, h0, List.append_assoc, decRun_replicate_g, h1]
    rfl
  unfold cppDecodeBody cppDecode
  rw [hrun]

theorem merged_ne_boundaryOf (n : Nat) :
    List.replicate n (103 : Byte) ++ [1] ≠ boundaryOf n 49 := by
  intro h
  have h2 := List.append_cancel_left h
  exact absurd h2 (by decide)

theorem quoteUnit_false_head : ∀ x : Byte, isHexDigit x = false →
    (quoteUnit false x).head?.map isHexDigit = some false := by
  decide

theorem foldl_quoteStep_flag (bs : List Byte) (st : QuoteState) :
    (bs.foldl quoteStep st).lastWasHex = quoteEndFlag st.lastWasHex bs := by
  induction bs generalizing st with
  | nil => rfl
  | cons b bs ih => rw [List.foldl_cons, ih, quoteStep_eq]; rfl

theorem quoteEndFlag_iff (c : List Byte) :
    quoteEndFlag false c = true ↔ 0 < c.length ∧ hexEscapedAt c (c.length - 1) := by
  rw [← lastWasHex_iff c c.length (Nat.le_refl _)]
  simp [stateAt, foldl_quoteStep_flag, quoteInit]

/-- Reading the text written for `bs` and then `rest`: the bytes `bs` come out
and the reading goes on with `rest`, provided that `rest` does not start with a
hexadecimal digit when the text for `bs` ends in a hexadecimal escape. -/
theorem decRun_quoteBody_append (bs : List Byte) (l : Bool) (rest : List Byte)
    (h : quoteEndFlag l bs = true → ∃ c cs, rest = c :: cs ∧ isHexDigit c = false) :
    decRun .body (quoteBody l bs ++ rest) =
      ((decRun .body rest).1, bs ++ (decRun .body rest).2) := by
  induction bs generalizing l with
  | nil => simp [quoteBody]
  | cons b bs ih =>
    have hrec := ih (quoteFlag l b) h
    rw [quoteBody, List.append_assoc, decRun_append, decRun_quoteUnit]
    cases hf : quoteFlag l b with
    | false =>
      rw [hf] at hrec
      simp [hrec]
    | true =>
      rw [hf] at hrec
      have hhead : ∃ c cs, quoteBody true bs ++ rest = c :: cs ∧ isHexDigit c = false := by
        cases bs with
        | nil =>
          have h0 : quoteEndFlag l [b] = true := by simp [quoteEndFlag, hf]
          obtain ⟨c, cs, hcs, hc⟩ := h h0
          exact ⟨c, cs, by simp [quoteBody, hcs], hc⟩
        | cons b2 bs2 =>
          have hu := quoteUnit_true_head b2
          cases hq : quoteUnit true b2 with
          | nil => simp [hq] at hu
          | cons c cs =>
            refine ⟨c, cs ++ quoteBody (quoteFlag true b2) bs2 ++ rest, ?_, ?_⟩
            · simp [quoteBody, hq]
            · simpa [hq] using hu
      obtain ⟨c, cs, hcs, hc⟩ := hhead
      simp only [if_true]
      rw [hcs, decRun_hex_of_not_hexDigit b c cs hc, ← hcs, hrec]
      simp

theorem decRun_bodies (cs : List (List Byte)) (hne : ∀ c ∈ cs, c ≠ [])
    (hno : ∀ k c d, cs[k]? = some c → cs[k + 1]? = some d → ¬mergesAt c d) :
    decRun .body ((cs.map (quoteBody false)).flatten ++ [34]) = (.done, cs.flatten) := by
  induction cs with
  | nil => rfl
  | cons c cs ih =>
    have hne2 : ∀ x ∈ cs, x ≠ [] := fun x hx => hne x (List.mem_cons_of_mem _ hx)
    have hno2 : ∀ k x y, cs[k]? = some x → cs[k + 1]? = some y → ¬mergesAt x y :=
      fun k x y hx hy => hno (k + 1) x y (by simpa using hx) (by simpa using hy)
    have hrec := ih hne2 hno2
    rw [List.map_cons, List.flatten_cons, List.append_assoc,
      decRun_quoteBody_append c false _ ?_, hrec]
    · simp
    · intro hflag
      cases cs with
      | nil => exact ⟨34, [], rfl, by decide⟩
      | cons d ds =>
        cases d with
        | nil => exact absurd rfl (hne2 [] (List.mem_cons_self _ _))
        | cons x xs =>
          have hnm := hno 0 c (x :: xs) (by simp) (by simp)
          have hx : isHexDigit x = false := by
            cases hxd : isHexDigit x with
            | false => rfl
            | true => exact absurd ⟨((quoteEndFlag_iff c).1 hflag).2, x, by simp, hxd⟩ hnm
          have hu := quoteUnit_false_head x hx
          cases hq : quoteUnit false x with
          | nil => simp [hq] at hu
          | cons u us =>
            refine ⟨u, us ++ quoteBody (quoteFlag false x) xs ++
              ((ds.map (quoteBody false)).flatten ++ [34]), ?_, ?_⟩
            · simp [quoteBody, hq]
            · simpa [hq] using hu

theorem cppDecodeBody_bodies (cs : List (List Byte)) (hne : ∀ c ∈ cs, c ≠ [])
    (hno : ∀ k c d, cs[k]? = some c → cs[k + 1]? = some d → ¬mergesAt c d) :
    cppDecodeBody (concatBodies (cs.map quote)) = some cs.flatten := by
  have h0 : decStep .start 34 = (.body, []) := by decide
  have hrun : decRun .start (34 :: (concatBodies (cs.map quote) ++ [34])) =
      (.done, cs.flatten) := by
    rw [decRun, h0, concatBodies_map_quote, decRun_bodies cs hne hno]
    rfl
  unfold cppDecodeBody cppDecode
  rw [hrun]

theorem blocks_ne_nil (data : List Byte) : ∀ c ∈ blocks data, c ≠ [] := by
  intro c hc h
  have := (blocks_mem_length data c hc).1
  rw [h] at this
  simp at this

/-- The claim C12 as stated fails: for the content of 8191 letters `g`, a NUL
byte and the digit `1`, the bodies of the two chunk literals are `g...g\x00` and
`1`; read as one body they end in the single escape `\x001`, and the decoded
bytes end in the byte 1 instead of the bytes 0 and 49. -/
theorem concat_bodies_counterexample :
    ∃ lits, kData boundaryContent = .ok lits ∧
      cppDecodeBody (concatBodies lits) = some (List.replicate 8191 103 ++ [1]) ∧
      cppDecodeBody (concatBodies lits) ≠ some boundaryContent := by
  have h1 : cppDecodeBody (concatBodies ((blocks boundaryContent).map quote)) =
      some (List.replicate 8191 103 ++ [1]) := by
    unfold boundaryContent
    rw [concatBodies_boundaryOf 8191 rfl, cppDecodeBody_merged]
  refine ⟨_, kData_eq boundaryContent, h1, ?_⟩
  rw [h1]
  intro h
  exact merged_ne_boundaryOf 8191 (Option.some.inj h)

/-- C12, amended: decoding each chunk literal of a content on its own and
concatenating the decoded chunks in order gives the content; decoding the
concatenated bodies as one body gives the content whenever no chunk that ends
in a hex-escaped byte is followed by a chunk that starts with a
hexadecimal-digit byte. -/
theorem chunk_bodies_decode (data : List Byte) :
    ∃ cs lits, chunkArgs data = .ok cs ∧ kData data = .ok lits ∧
      (∃ arr, decodeAll lits = some arr ∧ arr.flatten = data) ∧
      ((∀ k c d, cs[k]? = some c → cs[k + 1]? = some d → ¬mergesAt c d) →
        cppDecodeBody (concatBodies lits) = some data) := by
  refine ⟨blocks data, _, chunkArgs_eq data, kData_eq data,
    ⟨blocks data, decodeAll_map_quote _, blocks_flatten data⟩, ?_⟩
  intro hno
  rw [cppDecodeBody_bodies (blocks data) (blocks_ne_nil data) hno, blocks_flatten]

/-- Witness of C12 (amended): 8191 letters `g`, a NUL byte and one more `g`
make two chunks, the first ending in `\x00` and the second starting with a
letter that is not a hexadecimal digit. -/
theorem chunk_bodies_decode_witness :
    ∃ lits, kData (boundaryOf 8191 103) = .ok lits ∧
      cppDecodeBody (concatBodies lits) = some (boundaryOf 8191 103) := by
  obtain ⟨cs, lits, h1, h2, _, h4⟩ := chunk_bodies_decode (boundaryOf 8191 103)
  rw [chunkArgs_eq, blocks_boundaryOf 8191 103 rfl] at h1
  have hcs := Outcome.ok.inj h1
  refine ⟨lits, h2, h4 ?_⟩
  rw [← hcs]
  generalize List.replicate 8191 (103 : Byte) ++ [0] = first
  intro k c d hc hd hm
  cases k with
  | zero =>
    have hd2 : d = [103] := by simpa using hd.symm
    obtain ⟨x, hx, hxd⟩ := hm.2
    rw [hd2] at hx
    have hx2 : x = 103 := by simpa using hx.symm
    rw [hx2] at hxd
    exact absurd hxd (by decide)
  | succ k => simp at hd

theorem skipComment_append_some (s t r : List Byte) (h : skipComment s = some r) :
    skipComment (s ++ t) = some (r ++ t) := by
  induction s with
  | nil => simp [skipComment] at h
  | cons a s ih =>
    cases s with
    | nil => simp [skipComment] at h
    | cons b s2 =>
      by_cases hab : a = 42 ∧ b = 47
      · simp only [skipComment, hab, and_self, if_true, Option.some.injEq] at h
        simp [skipComment, hab, h]
      · simp only [skipComment, hab, if_false] at h
        have := ih h
        simpa [skipComment, hab] using this

theorem skipComment_append_none (s t : List Byte) (h : skipComment s = none)
    (hb : s.getLast? ≠ some 42 ∨ t.head? ≠ some 47) :
    skipComment (s ++ t) = skipComment t := by
  induction s with
  | nil => rfl
  | cons a s ih =>
    cases s with
    | nil =>
      cases t with
      | nil => simp [skipComment]
      | cons c t2 =>
        have hne : ¬(a = 42 ∧ c = 47) := by
          rintro ⟨rfl, rfl⟩
          simp at hb
        simp [skipComment, hne]
    | cons b s2 =>
      by_cases hab : a = 42 ∧ b = 47
      · simp [skipComment, hab] at h
      · simp only [skipComment, hab, if_false] at h
        have hb2 : (b :: s2).getLast? ≠ some 42 ∨ t.head? ≠ some 47 := by
          simpa [List.getLast?_cons_cons] using hb
        have := ih h hb2
        simpa [skipComment, hab] using this

theorem headerRest_head (files : List (List Byte)) : (headerRest files).head? = some 32 := by
  cases files with
  | nil => decide
  | cons f fs => rfl

theorem headerRest_length (files : List (List Byte)) : 4 ≤ (headerRest files).length := by
  have h : (ascii " */\n").length = 4 := by decide
  simp only [headerRest, List.length_append, h]
  omega

theorem headerRest_cons (f : List Byte) (fs : List (List Byte)) :
    headerRest (f :: fs) = ascii " \\\n *       " ++ (f ++ headerRest fs) := by
  simp [headerRest]

theorem skipComment_headerRest_cons (f : List Byte) (fs : List (List Byte)) :
    skipComment (headerRest (f :: fs)) = skipComment (f ++ headerRest fs) := by
  rw [headerRest_cons]
  exact skipComment_append_none _ _ (by decide) (Or.inl (by decide))

theorem skipComment_headerRest_ok (files : List (List Byte))
    (h : ∀ f ∈ files, skipComment f = none) :
    skipComment (headerRest files) = some [10] := by
  induction files with
  | nil => decide
  | cons f fs ih =>
    have hf := h f (List.mem_cons_self _ _)
    have hfs : ∀ g ∈ fs, skipComment g = none := fun g hg => h g (List.mem_cons_of_mem _ hg)
    rw [skipComment_headerRest_cons, skipComment_append_none f _ hf
      (Or.inr (by rw [headerRest_head]; decide)), ih hfs]

theorem skipComment_headerRest_bad (files : List (List Byte))
    (h : ∃ f ∈ files, skipComment f ≠ none) :
    ∃ r, skipComment (headerRest files) = some r ∧ 4 ≤ r.length := by
  induction files with
  | nil => simp at h
  | cons f fs ih =>
    rw [skipComment_headerRest_cons]
    cases hf : skipComment f with
    | some r0 =>
      refine ⟨r0 ++ headerRest fs, skipComment_append_some f _ r0 hf, ?_⟩
      have := headerRest_length fs
      rw [List.length_append]
      omega
    | none =>
      rw [skipComment_append_none f _ hf (Or.inr (by rw [headerRest_head]; decide))]
      apply ih
      obtain ⟨g, hg, hgn⟩ := h
      rcases List.mem_cons.1 hg with rfl | hg
      · exact absurd hf hgn
      · exact ⟨g, hg, hgn⟩

theorem generatedBy_drop (files : List (List Byte)) :
    skipComment ((generatedBy files).drop 2) = skipComment (headerRest files) := by
  have h1 : ascii "/* This file is generated by:\n" =
      47 :: 42 :: (ascii "/* This file is generated by:\n").drop 2 := by decide
  have h2 : (generatedBy files).drop 2 =
      ((ascii "/* This file is generated by:\n").drop 2 ++
        ascii " *   go run util/embed_test_data.go") ++ headerRest files := by
    unfold generatedBy headerRest
    rw [h1]
    simp
  rw [h2]
  exact skipComment_append_none _ _ (by decide) (Or.inl (by decide))

/-- The comment that lists the files ends where `main` closes it exactly when
no file path holds `*/`. -/
theorem headerCloses_iff (files : List (List Byte)) :
    headerCloses files = true ↔ ∀ f ∈ files, skipComment f = none := by
  simp only [headerCloses, decide_eq_true_eq, generatedBy_drop]
  constructor
  · intro h f hf
    by_contra hne
    obtain ⟨r, hr, hlen⟩ := skipComment_headerRest_bad files ⟨f, hf, hne⟩
    rw [hr] at h
    have := Option.some.inj h
    rw [this] at hlen
    simp at hlen
  · exact skipComment_headerRest_ok files

/-- With NUL-free keys and a NUL-free path `p`: when no key holds `*/`, the
generated `GetTestData` returns the content of the first entry whose key is `p`
and aborts, reporting `p`, exactly when no key is `p`; when some key holds `*/`,
the generated file is not the program `main` means to print. -/
theorem GetTestData_first_match (entries : List Entry) (p : List Byte)
    (hkeys : ∀ e ∈ entries, (0 : Byte) ∉ e.key) (hp : (0 : Byte) ∉ p) :
    ((∀ e ∈ entries, skipComment e.key = none) →
      GetTestData entries p =
        (match entries.find? (fun e => decide (e.key = p)) with
         | some e => .found e.content
         | none => .abort p) ∧
      (GetTestData entries p = .abort p ↔ ∀ e ∈ entries, e.key ≠ p)) ∧
    ((∃ e ∈ entries, skipComment e.key ≠ none) → GetTestData entries p = .undefined) := by
  refine ⟨?_, ?_⟩
  · intro hok
    have hc : headerCloses (entries.map Entry.key) = true := by
      rw [headerCloses_iff]
      intro f hf
      obtain ⟨e, he, rfl⟩ := List.mem_map.1 hf
      exact hok e he
    have := lookupChain_first_match entries p hkeys hp
    simpa [GetTestData, hc] using this
  · rintro ⟨e, he, hne⟩
    have hc : headerCloses (entries.map Entry.key) = false := by
      cases h : headerCloses (entries.map Entry.key) with
      | false => rfl
      | true =>
        exact absurd ((headerCloses_iff _).1 h e.key (List.mem_map.2 ⟨e, he, rfl⟩)) hne
    simp [GetTestData, hc]

/-- C8: the code departs from the claim at the single entry with the NUL-free
key `x*/y` and the content `hi`, looked up with the path `x*/y`. `main` prints
the key raw into the comment that lists the files, so the comment ends at the
`*/` inside the key and `y */` is left in the file as code: the generated file
is not the program with `GetTestData`, although the chain of comparisons, which
writes the key through `quote`, would return `hi`. For the key `a.txt` the
lookup returns `hi` for `a.txt` and aborts for `b.txt`, as the claim says. -/
theorem lookup_dispatch_header_bug :
    GetTestData [⟨ascii "x*/y", ascii "hi"⟩] (ascii "x*/y") = .undefined ∧
    skipComment ((generatedBy [ascii "x*/y"]).drop 2) = some (ascii "y */\n") ∧
    lookupChain [⟨ascii "x*/y", ascii "hi"⟩] (ascii "x*/y") = .found (ascii "hi") ∧
    (0 : Byte) ∉ ascii "x*/y" ∧
    GetTestData [⟨ascii "a.txt", ascii "hi"⟩] (ascii "a.txt") = .found (ascii "hi") ∧
    GetTestData [⟨ascii "a.txt", ascii "hi"⟩] (ascii "b.txt") = .abort (ascii "b.txt") := by
  decide

end EmbedTestData
